import Mathlib

/-!
Verification of the EventFlow core against its specification.

The definitions below are shallow embeddings of the Python sources:
  * `eventflow_core/runtime/exec.py`   (fixed-step bucketing)
  * `eventflow_core/runtime/scheduler.py` (coincidence fuse)
  * `eventflow_core/eir/ops.py`        (operator library)
  * `eventflow_core/eir/graph.py`      (topological sort)
  * `conformance/comparator.py`        (trace comparator)
  * `cpu_sim/executor.py`              (capability planner)

Machine integers are modelled as `Int`, Python floats as `Rat` where the
code only performs field operations that are exact on the inputs of
interest, and as `Real` where transcendental functions appear.
-/

namespace EventFlow

set_option autoImplicit false

/-- An event `(t, ch, val)`: integer nanosecond timestamp, integer channel,
and a numeric value.  The metadata dictionary of the Python event tuple is
dropped except where an operator reads it (see `EvXY`). -/
structure Ev (α : Type) where
  t : ℤ
  ch : ℤ
  v : α
  deriving Repr, DecidableEq

variable {α : Type} [AddCommMonoid α]

/-! ## Fixed-step bucketing (`run_fixed_dt` fallback path in `runtime/exec.py`)

The Python code is
```
def bucket(it):
    for key, group in itertools.groupby(it, key=lambda e: (e[0] // dt_ns) * dt_ns):
        total = 0.0
        for ev in group:
            total += ev[2]
        yield (key + dt_ns, 0, total, {"unit": "bucket"})
```
`//` is Python floor division, i.e. `Int.fdiv`.  `itertools.groupby` groups
maximal runs of consecutive elements with equal key. -/

/-- The grouping key `(e[0] // dt_ns) * dt_ns` of the bucketing loop. -/
def bucketKey (dtNs : ℤ) (e : Ev α) : ℤ := (e.t.fdiv dtNs) * dtNs

/-- Inner loop of `bucket`: accumulate the current group (key `key`, running
sum `total`), emitting `(key + dt, 0, total)` at each key change and at the
end of the stream. -/
def bucketGo (dtNs : ℤ) (key : ℤ) (total : α) : List (Ev α) → List (Ev α)
  | [] => [⟨key + dtNs, 0, total⟩]
  | e :: rest =>
    if bucketKey dtNs e = key then
      bucketGo dtNs key (total + e.v) rest
    else
      ⟨key + dtNs, 0, total⟩ :: bucketGo dtNs (bucketKey dtNs e) e.v rest

/-- The bucketing generator of `run_fixed_dt`: group consecutive events by
`bucketKey` and sum the values of each group in input order. -/
def bucket (dtNs : ℤ) : List (Ev α) → List (Ev α)
  | [] => []
  | e :: rest => bucketGo dtNs (bucketKey dtNs e) e.v rest

/-- Per-channel bucketing, as the specification's words describe it for
multi-channel input ("aggregated by summation of values, by channel for
multi-channel input if present").  Modelled from the spec, for comparison
with `bucket`, which is the code's behaviour. -/
def bucketPerChannel (dtNs : ℤ) (l : List (Ev α)) : List (Ev α) :=
  let chans := (l.map Ev.ch).dedup
  let keys := (l.map (fun e => (e.t.fdiv dtNs) * dtNs)).dedup
  keys.flatMap (fun k =>
    chans.filterMap (fun c =>
      let grp := l.filter (fun e => (e.t.fdiv dtNs) * dtNs = k ∧ e.ch = c)
      if grp.isEmpty then none
      else some ⟨k + dtNs, c, (grp.map Ev.v).sum⟩))

lemma bucketKey_mono (dt : ℤ) (hdt : 0 < dt) {a b : Ev α} (h : a.t ≤ b.t) :
    bucketKey dt a ≤ bucketKey dt b := by
  unfold bucketKey
  rw [Int.fdiv_eq_ediv _ hdt.le, Int.fdiv_eq_ediv _ hdt.le]
  exact mul_le_mul_of_nonneg_right (Int.ediv_le_ediv hdt h) hdt.le

lemma bucketKey_interval (dt : ℤ) (hdt : 0 < dt) (e : Ev α) (k : ℤ) :
    bucketKey dt e = k * dt ↔ (k * dt ≤ e.t ∧ e.t < (k + 1) * dt) := by
  unfold bucketKey
  rw [Int.fdiv_eq_ediv _ hdt.le]
  constructor
  · intro h
    have hk : e.t / dt = k := mul_right_cancel₀ hdt.ne' h
    constructor
    · calc k * dt = e.t / dt * dt := by rw [hk]
        _ ≤ e.t := Int.ediv_mul_le _ hdt.ne'
    · have : e.t / dt < k + 1 := by omega
      exact (Int.ediv_lt_iff_lt_mul hdt).mp this
  · rintro ⟨h1, h2⟩
    have hl : k ≤ e.t / dt := (Int.le_ediv_iff_mul_le hdt).mpr h1
    have hr : e.t / dt < k + 1 := (Int.ediv_lt_iff_lt_mul hdt).mpr h2
    have : e.t / dt = k := by omega
    rw [this]

lemma bucketGo_spec (dtNs k : ℤ) (acc : α) (l : List (Ev α)) :
    bucketGo dtNs k acc l =
      ⟨k + dtNs, 0, acc + ((l.takeWhile (fun e => bucketKey dtNs e = k)).map Ev.v).sum⟩ ::
        bucket dtNs (l.dropWhile (fun e => bucketKey dtNs e = k)) := by
  induction l generalizing acc with
  | nil => simp [bucketGo, bucket]
  | cons e rest ih =>
    by_cases h : bucketKey dtNs e = k
    · simp only [bucketGo, h, if_pos rfl, List.takeWhile, List.dropWhile]
      rw [ih]
      simp [h, List.map_cons, List.sum_cons, add_assoc]
    · simp only [bucketGo, h, if_neg h, List.takeWhile, List.dropWhile]
      simp [h, bucket]

lemma dropWhile_first_not {β : Type} (p : β → Bool) :
    ∀ (l : List β) (x : β) (xs : List β), l.dropWhile p = x :: xs → ¬ p x := by
  intro l
  induction l with
  | nil => intro x xs h; simp [List.dropWhile] at h
  | cons a l ih =>
    intro x xs h
    by_cases ha : p a
    · rw [List.dropWhile_cons_of_pos ha] at h; exact ih x xs h
    · rw [List.dropWhile_cons_of_neg ha] at h
      obtain ⟨rfl, rfl⟩ := List.cons.inj h
      exact ha

lemma bucket_run_spec (dt : ℤ) (hdt : 0 < dt) :
    ∀ (n : ℕ) (l : List (Ev α)), l.length ≤ n →
      l.Pairwise (fun a b => a.t ≤ b.t) →
      (∀ e ∈ bucket dt l, e.ch = 0 ∧ ∃ f ∈ l, e.t = bucketKey dt f + dt) ∧
      (bucket dt l).Chain' (fun a b => a.t < b.t) ∧
      (∀ k : ℤ, (bucket dt l).filter (fun e => e.t = k * dt + dt) =
        (if (l.filter (fun e => bucketKey dt e = k * dt)).isEmpty then []
         else [⟨k * dt + dt, 0,
                ((l.filter (fun e => bucketKey dt e = k * dt)).map Ev.v).sum⟩])) := by
  intro n
  induction n with
  | zero =>
    intro l hl _
    have : l = [] := List.length_eq_zero.mp (Nat.le_zero.mp hl)
    subst this
    refine ⟨by simp [bucket], by simp [bucket], ?_⟩
    intro k; simp [bucket]
  | succ n ih =>
    intro l hl hp
    match l with
    | [] =>
      refine ⟨by simp [bucket], by simp [bucket], ?_⟩
      intro k; simp [bucket]
    | e :: rest =>
      have hp1 : ∀ x ∈ rest, e.t ≤ x.t := by
        intro x hx; exact (List.pairwise_cons.mp hp).1 x hx
      have hp2 : rest.Pairwise (fun a b => a.t ≤ b.t) := (List.pairwise_cons.mp hp).2
      have hbkt : bucket dt (e :: rest) =
          ⟨bucketKey dt e + dt, 0,
            e.v + ((rest.takeWhile (fun x => bucketKey dt x = bucketKey dt e)).map Ev.v).sum⟩ ::
          bucket dt (rest.dropWhile (fun x => bucketKey dt x = bucketKey dt e)) := by
        show bucketGo dt (bucketKey dt e) e.v rest = _
        rw [bucketGo_spec]
      have hdwsub : (rest.dropWhile (fun x => bucketKey dt x = bucketKey dt e)).Sublist rest :=
        List.dropWhile_sublist _
      have hdwlen : (rest.dropWhile (fun x => bucketKey dt x = bucketKey dt e)).length ≤ n := by
        have := hdwsub.length_le
        have : rest.length ≤ n := by simpa using Nat.succ_le_succ_iff.mp hl
        omega
      have hdwp : (rest.dropWhile (fun x => bucketKey dt x = bucketKey dt e)).Pairwise
          (fun a b => a.t ≤ b.t) := hp2.sublist hdwsub
      obtain ⟨IH1, IH2, IH3⟩ := ih _ hdwlen hdwp
      -- every element of the dropWhile suffix has a strictly larger bucket key
      have hdwgt : ∀ x ∈ rest.dropWhile (fun x => bucketKey dt x = bucketKey dt e),
          bucketKey dt e < bucketKey dt x := by
        cases hdw : rest.dropWhile (fun x => bucketKey dt x = bucketKey dt e) with
        | nil => intro x hx; simp at hx
        | cons d dtail =>
          have hdne : bucketKey dt d ≠ bucketKey dt e := by
            have := dropWhile_first_not _ rest d dtail hdw
            simpa using this
          have hdmem : d ∈ rest := hdwsub.subset (by rw [hdw]; exact List.mem_cons_self _ _)
          have hdk : bucketKey dt e < bucketKey dt d :=
            lt_of_le_of_ne (bucketKey_mono dt hdt (hp1 d hdmem)) (Ne.symm hdne)
          intro x hx
          rcases List.mem_cons.mp hx with rfl | hx
          · exact hdk
          · have hdx : d.t ≤ x.t := by
              have := hdwp
              rw [hdw] at this
              exact (List.pairwise_cons.mp this).1 x hx
            exact lt_of_lt_of_le hdk (bucketKey_mono dt hdt hdx)
      have htw : ∀ x ∈ rest.takeWhile (fun x => bucketKey dt x = bucketKey dt e),
          bucketKey dt x = bucketKey dt e := by
        intro x hx
        have := List.mem_takeWhile_imp hx
        simpa using this
      refine ⟨?_, ?_, ?_⟩
      · -- output channels are 0 and output times come from input keys
        intro x hx
        rw [hbkt] at hx
        rcases List.mem_cons.mp hx with rfl | hx
        · exact ⟨rfl, e, List.mem_cons_self _ _, rfl⟩
        · obtain ⟨hch, f, hf, ht⟩ := IH1 x hx
          exact ⟨hch, f, List.mem_cons_of_mem _ (hdwsub.subset hf), ht⟩
      · -- strictly increasing output timestamps
        rw [hbkt]
        rw [List.chain'_cons']
        refine ⟨?_, IH2⟩
        intro y hy
        have hymem : y ∈ bucket dt (rest.dropWhile (fun x => bucketKey dt x = bucketKey dt e)) :=
          List.mem_of_mem_head? hy
        obtain ⟨_, f, hf, ht⟩ := IH1 y hymem
        have := hdwgt f hf
        show bucketKey dt e + dt < y.t
        omega
      · -- per-bucket characterisation
        intro k
        rw [hbkt]
        have hsplit : rest.filter (fun x => bucketKey dt x = k * dt) =
            (rest.takeWhile (fun x => bucketKey dt x = bucketKey dt e)).filter
              (fun x => bucketKey dt x = k * dt) ++
            (rest.dropWhile (fun x => bucketKey dt x = bucketKey dt e)).filter
              (fun x => bucketKey dt x = k * dt) := by
          conv_lhs => rw [← List.takeWhile_append_dropWhile
            (p := fun x => decide (bucketKey dt x = bucketKey dt e)) (l := rest)]
          rw [List.filter_append]
        by_cases hke : bucketKey dt e = k * dt
        · -- the first run is bucket k
          have h1 : (rest.takeWhile (fun x => bucketKey dt x = bucketKey dt e)).filter
              (fun x => bucketKey dt x = k * dt) =
              rest.takeWhile (fun x => bucketKey dt x = bucketKey dt e) := by
            rw [List.filter_eq_self]
            intro a ha
            have := htw a ha
            simp only [decide_eq_true_eq]
            omega
          have h2 : (rest.dropWhile (fun x => bucketKey dt x = bucketKey dt e)).filter
              (fun x => bucketKey dt x = k * dt) = [] := by
            rw [List.filter_eq_nil_iff]
            intro a ha
            have := hdwgt a ha
            simp only [decide_eq_true_eq]
            omega
          have hfl : (e :: rest).filter (fun x => bucketKey dt x = k * dt) =
              e :: rest.takeWhile (fun x => bucketKey dt x = bucketKey dt e) := by
            rw [List.filter_cons, hsplit, h1, h2, List.append_nil]
            simp [hke]
          rw [hfl]
          have htail : (bucket dt
              (rest.dropWhile (fun x => bucketKey dt x = bucketKey dt e))).filter
              (fun x => x.t = k * dt + dt) = [] := by
            rw [List.filter_eq_nil_iff]
            intro a ha
            obtain ⟨_, f, hf, ht⟩ := IH1 a ha
            have := hdwgt f hf
            simp only [decide_eq_true_eq]
            omega
          rw [List.filter_cons, htail]
          simp [hke, List.map_cons, List.sum_cons]
        · -- bucket k is untouched by the first run
          have h1 : (rest.takeWhile (fun x => bucketKey dt x = bucketKey dt e)).filter
              (fun x => bucketKey dt x = k * dt) = [] := by
            rw [List.filter_eq_nil_iff]
            intro a ha
            have := htw a ha
            simp only [decide_eq_true_eq]
            omega
          have hfl : (e :: rest).filter (fun x => bucketKey dt x = k * dt) =
              (rest.dropWhile (fun x => bucketKey dt x = bucketKey dt e)).filter
                (fun x => bucketKey dt x = k * dt) := by
            rw [List.filter_cons, hsplit, h1, List.nil_append]
            simp [hke]
          rw [hfl]
          have hhd : ¬ ((⟨bucketKey dt e + dt, 0,
              e.v + ((rest.takeWhile (fun x => bucketKey dt x = bucketKey dt e)).map
                Ev.v).sum⟩ : Ev α).t = k * dt + dt) := by
            show ¬ (bucketKey dt e + dt = k * dt + dt)
            omega
          rw [List.filter_cons]
          simp only [hhd, decide_eq_true_eq, if_neg, Bool.false_eq_true, if_false]
          have := IH3 k
          simp only [decide_eq_true_eq] at this ⊢
          convert this using 2

lemma chain_le_pairwise {l : List (Ev α)} (h : l.Chain' (fun a b => a.t ≤ b.t)) :
    l.Pairwise (fun a b => a.t ≤ b.t) := by
  haveI : IsTrans (Ev α) (fun a b => a.t ≤ b.t) := ⟨fun _ _ _ h1 h2 => le_trans h1 h2⟩
  exact List.chain'_iff_pairwise.mp h

/-- Claim C2 (amended): in fixed-step execution with `dt > 0` and a
non-decreasing input stream, events with timestamps in `[k*dt, (k+1)*dt)`
(equivalently, bucket key `k*dt`) are aggregated by summing their values in
input order, always reduced onto channel 0 (regardless of how many channels
the input uses), and exactly one event per non-empty bucket is emitted at
time `(k+1)*dt`, so every emitted timestamp is an exact multiple of `dt`. -/
theorem claim2_bucket_fixed_step (dt : ℤ) (l : List (Ev α)) (hdt : 0 < dt)
    (hm : l.Chain' (fun a b => a.t ≤ b.t)) :
    (∀ (e : Ev α) (k : ℤ), bucketKey dt e = k * dt ↔ (k * dt ≤ e.t ∧ e.t < (k + 1) * dt)) ∧
    (∀ e ∈ bucket dt l, e.ch = 0 ∧ ∃ m : ℤ, e.t = m * dt) ∧
    (bucket dt l).Chain' (fun a b => a.t < b.t) ∧
    (∀ k : ℤ, (bucket dt l).filter (fun e => e.t = k * dt + dt) =
      (if (l.filter (fun e => bucketKey dt e = k * dt)).isEmpty then []
       else [⟨k * dt + dt, 0,
              ((l.filter (fun e => bucketKey dt e = k * dt)).map Ev.v).sum⟩])) := by
  obtain ⟨h1, h2, h3⟩ := bucket_run_spec dt hdt l.length l le_rfl (chain_le_pairwise hm)
  refine ⟨fun e k => bucketKey_interval dt hdt e k, ?_, h2, h3⟩
  intro e he
  obtain ⟨hch, f, _, ht⟩ := h1 e he
  refine ⟨hch, f.t.fdiv dt + 1, ?_⟩
  rw [ht]
  unfold bucketKey
  ring

/-- Witness for C2 at the spec's concrete scenario: inputs at t = 1, 2, 3 ms
with value 1.0 each and dt = 1 ms. -/
theorem claim2_bucket_fixed_step_witness :
    (0:ℤ) < 1000000 ∧
    ([⟨1000000, 0, 1⟩, ⟨2000000, 0, 1⟩, ⟨3000000, 0, 1⟩] : List (Ev ℤ)).Chain'
      (fun a b => a.t ≤ b.t) ∧
    ((∀ (e : Ev ℤ) (k : ℤ),
        bucketKey 1000000 e = k * 1000000 ↔
          (k * 1000000 ≤ e.t ∧ e.t < (k + 1) * 1000000)) ∧
     (∀ e ∈ bucket 1000000
          ([⟨1000000, 0, 1⟩, ⟨2000000, 0, 1⟩, ⟨3000000, 0, 1⟩] : List (Ev ℤ)),
        e.ch = 0 ∧ ∃ m : ℤ, e.t = m * 1000000) ∧
     (bucket 1000000
        ([⟨1000000, 0, 1⟩, ⟨2000000, 0, 1⟩, ⟨3000000, 0, 1⟩] : List (Ev ℤ))).Chain'
          (fun a b => a.t < b.t) ∧
     (∀ k : ℤ, (bucket 1000000
          ([⟨1000000, 0, 1⟩, ⟨2000000, 0, 1⟩, ⟨3000000, 0, 1⟩] : List (Ev ℤ))).filter
            (fun e => e.t = k * 1000000 + 1000000) =
        (if (([⟨1000000, 0, 1⟩, ⟨2000000, 0, 1⟩, ⟨3000000, 0, 1⟩] : List (Ev ℤ)).filter
              (fun e => bucketKey 1000000 e = k * 1000000)).isEmpty then []
         else [⟨k * 1000000 + 1000000, 0,
                ((([⟨1000000, 0, 1⟩, ⟨2000000, 0, 1⟩, ⟨3000000, 0, 1⟩] : List (Ev ℤ)).filter
                  (fun e => bucketKey 1000000 e = k * 1000000)).map Ev.v).sum⟩]))) ∧
    bucket 1000000 ([⟨1000000, 0, 1⟩, ⟨2000000, 0, 1⟩, ⟨3000000, 0, 1⟩] : List (Ev ℤ)) =
      [⟨2000000, 0, 1⟩, ⟨3000000, 0, 1⟩, ⟨4000000, 0, 1⟩] :=
  ⟨by decide, by simp [List.chain'_cons],
   claim2_bucket_fixed_step 1000000 _ (by decide) (by simp [List.chain'_cons]), by decide⟩

/-- Claim C2 counterexample: with more than one channel in a bucket, the
code does not aggregate per channel; all values of the bucket are summed
onto channel 0. -/
theorem claim2_counterexample :
    bucket 10 [⟨0, 0, 1⟩, ⟨0, 1, 2⟩] = [⟨10, 0, 3⟩] ∧
    bucket 10 [⟨0, 0, 1⟩, ⟨0, 1, 2⟩] ≠ bucketPerChannel 10 [⟨0, 0, 1⟩, ⟨0, 1, 2⟩] := by
  decide

lemma bucketKey_one (e : Ev α) : bucketKey 1 e = e.t := by
  unfold bucketKey
  rw [Int.fdiv_eq_ediv _ (by norm_num : (0:ℤ) ≤ 1), Int.ediv_one, mul_one]

/-- Claim C8 (amended): for `dt_ns = 1` and strictly increasing input
timestamps, bucketing is the identity on values and shifts every timestamp
by one: `bucket 1 l = l.map (fun e => ⟨e.t + 1, 0, e.v⟩)`. -/
theorem claim8_bucket_dt_one (l : List (Ev α)) (hs : l.Chain' (fun a b => a.t < b.t)) :
    bucket 1 l = l.map (fun e => ⟨e.t + 1, 0, e.v⟩) := by
  induction l with
  | nil => simp [bucket]
  | cons e rest ih =>
    cases rest with
    | nil =>
      show bucketGo 1 (bucketKey 1 e) e.v [] = _
      simp [bucketGo, bucketKey_one]
    | cons f rest2 =>
      have hef : e.t < f.t := (List.chain'_cons.mp hs).1
      have htl : (f :: rest2).Chain' (fun a b => a.t < b.t) := (List.chain'_cons.mp hs).2
      have hne : ¬ (bucketKey 1 f = bucketKey 1 e) := by
        rw [bucketKey_one, bucketKey_one]; omega
      show bucketGo 1 (bucketKey 1 e) e.v (f :: rest2) = _
      rw [bucketGo, if_neg hne]
      have htail : bucketGo 1 (bucketKey 1 f) f.v rest2 =
          (f :: rest2).map (fun e => (⟨e.t + 1, 0, e.v⟩ : Ev α)) := ih htl
      rw [htail, bucketKey_one]
      simp [List.map_cons]

/-- Witness for C8 at a concrete strictly increasing input. -/
theorem claim8_bucket_dt_one_witness :
    ([⟨3, 0, 5⟩, ⟨7, 1, 2⟩, ⟨9, 0, 4⟩] : List (Ev ℤ)).Chain' (fun a b => a.t < b.t) ∧
    bucket 1 ([⟨3, 0, 5⟩, ⟨7, 1, 2⟩, ⟨9, 0, 4⟩] : List (Ev ℤ)) =
      ([⟨3, 0, 5⟩, ⟨7, 1, 2⟩, ⟨9, 0, 4⟩] : List (Ev ℤ)).map
        (fun e => ⟨e.t + 1, 0, e.v⟩) :=
  ⟨by simp [List.chain'_cons], claim8_bucket_dt_one _ (by simp [List.chain'_cons])⟩

/-- Claim C8 counterexample: two events sharing a timestamp fall into the
same `dt = 1` bucket and are merged, so the output is shorter than the
input and does not reproduce the values one-for-one. -/
theorem claim8_counterexample :
    bucket 1 [⟨5, 0, 1⟩, ⟨5, 0, 2⟩] = [⟨6, 0, 3⟩] ∧
    (bucket 1 [⟨5, 0, 1⟩, ⟨5, 0, 2⟩]).length ≠
      ([⟨5, 0, 1⟩, ⟨5, 0, 2⟩] : List (Ev ℤ)).length := by
  decide

/-! ## Trace comparator (`conformance/comparator.py`)

The comparison loop of `compare_traces_jsonl` is
```
dt = abs(tsc - tsg)
denom = max(1.0, abs(valg))
dv = abs(valc - valg) / denom
idx_equal = (idxg == idxc)
if (dt > eps_time_us) or (dv > eps_numeric) or (not idx_equal):
    mismatches += 1
```
No unit conversion is applied to the timestamps; the header time unit is
only checked for equality between the two traces. -/

/-- A trace record `(ts, idx, val)` as produced by `_read_records`. -/
structure TraceRec where
  ts : ℤ
  idx : List ℤ
  val : ℚ
  deriving Repr, DecidableEq

/-- The mismatch test applied to one golden/candidate record pair by
`compare_traces_jsonl`. -/
def recMismatch (epsTimeUs : ℤ) (epsNumeric : ℚ) (g c : TraceRec) : Bool :=
  decide ((epsTimeUs : ℤ) < |c.ts - g.ts|) ||
  decide (epsNumeric < |c.val - g.val| / max 1 |g.val|) ||
  decide (¬ (g.idx = c.idx))

/-- The element-wise comparison loop: count mismatching pairs over the
common prefix (`range(min(len, len))`) of the two record lists. -/
def mismatchCount (epsTimeUs : ℤ) (epsNumeric : ℚ) :
    List TraceRec → List TraceRec → ℕ
  | g :: gs, c :: cs =>
    (if recMismatch epsTimeUs epsNumeric g c then 1 else 0) +
      mismatchCount epsTimeUs epsNumeric gs cs
  | _, _ => 0

/-- Microseconds per time unit of a trace header.  Modelled from the spec:
the claim's mismatch criterion compares timestamps "converted to µs via
the header unit"; the code never performs such a conversion. -/
def usPerUnit (u : String) : ℚ :=
  if u = "ns" then 1 / 1000 else if u = "ms" then 1000 else 1

/-- The claim's mismatch criterion for one record pair, with both
timestamps converted to microseconds via the header time unit. -/
def recMismatchClaim (unit : String) (epsTimeUs : ℤ) (epsNumeric : ℚ)
    (g c : TraceRec) : Prop :=
  (epsTimeUs : ℚ) < |(c.ts : ℚ) * usPerUnit unit - (g.ts : ℚ) * usPerUnit unit| ∨
  ¬ (g.idx = c.idx) ∨
  epsNumeric < |c.val - g.val| / max 1 |g.val|

lemma recMismatch_eq_decide (epsT : ℤ) (epsN : ℚ) (g c : TraceRec) :
    recMismatch epsT epsN g c =
      decide ((epsT : ℤ) < |c.ts - g.ts| ∨ ¬ (g.idx = c.idx) ∨
              epsN < |c.val - g.val| / max 1 |g.val|) := by
  by_cases h1 : (epsT : ℤ) < |c.ts - g.ts| <;>
    by_cases h2 : epsN < |c.val - g.val| / max 1 |g.val| <;>
      by_cases h3 : g.idx = c.idx <;>
        simp [recMismatch, h1, h2, h3]

/-- Claim C3 (amended): the i-th record pair is counted as a mismatch iff
the raw timestamp difference `|ts_c - ts_g|` (in the header's own unit,
with no conversion to microseconds) exceeds `eps_time_us`, or the index
tuples differ, or the relative error `|val_c - val_g| / max(1, |val_g|)`
exceeds `eps_numeric`. -/
theorem claim3_comparator_mismatch (epsT : ℤ) (epsN : ℚ)
    (rg rc : List TraceRec) :
    mismatchCount epsT epsN rg rc =
      (rg.zip rc).countP (fun p =>
        decide ((epsT : ℤ) < |p.2.ts - p.1.ts| ∨ ¬ (p.1.idx = p.2.idx) ∨
                epsN < |p.2.val - p.1.val| / max 1 |p.1.val|)) := by
  induction rg generalizing rc with
  | nil => cases rc <;> simp [mismatchCount]
  | cons g gs ih =>
    cases rc with
    | nil => simp [mismatchCount]
    | cons c cs =>
      show (if recMismatch epsT epsN g c then 1 else 0) + mismatchCount epsT epsN gs cs = _
      rw [List.zip_cons_cons, List.countP_cons, ih cs, recMismatch_eq_decide]
      dsimp only
      omega

/-- Claim C3 counterexample: golden `ts=0`, candidate `ts=1` in a trace
whose header unit is milliseconds, with `eps_time_us = 100`.  Converted to
microseconds the delta is 1000 > 100, so the claim calls it a mismatch;
the code compares the raw delta 1 against 100 and counts no mismatch. -/
theorem claim3_counterexample :
    recMismatch 100 0 ⟨0, [0], 0⟩ ⟨1, [0], 0⟩ = false ∧
    mismatchCount 100 0 [⟨0, [0], 0⟩] [⟨1, [0], 0⟩] = 0 ∧
    recMismatchClaim "ms" 100 0 ⟨0, [0], 0⟩ ⟨1, [0], 0⟩ := by
  refine ⟨?_, ?_, ?_⟩
  · norm_num [recMismatch]
  · show (if recMismatch 100 0 ⟨0, [0], 0⟩ ⟨1, [0], 0⟩ then 1 else 0) + 0 = 0
    norm_num [recMismatch]
  · refine Or.inl ?_
    rw [show usPerUnit "ms" = 1000 from rfl]
    push_cast
    rw [show |(1:ℚ) * 1000 - 0 * 1000| = 1000 by norm_num [abs_of_nonneg]]
    norm_num

/-! ## Capability planner (`cpu_sim/executor.py`, `fixed_step` branch)

```
res_us = time_resolution_ns / 1000.0
if dt_us_req is None or not isinstance(dt_us_req, int) or dt_us_req < 1:
    raise ValueError("backend.time_config_invalid: ...")
q = round(dt_us_req / res_us) if res_us > 0 else dt_us_req
if q < 1:
    q = 1
dt_us_sel = q * res_us
quant_err = abs(dt_us_sel - dt_us_req)
if quant_err > eps_time_us:
    raise ValueError("backend.time_quantization_violation: ...")
```
Python's `round` is round-half-to-even. -/

/-- Python's `round` (half to even) on an exact rational. -/
def roundHalfEven (x : ℚ) : ℤ :=
  if x - ⌊x⌋ < 1 / 2 then ⌊x⌋
  else if 1 / 2 < x - ⌊x⌋ then ⌊x⌋ + 1
  else if ⌊x⌋ % 2 = 0 then ⌊x⌋ else ⌊x⌋ + 1

/-- The quantized `dt_us_sel` computed by `plan_cpu_sim` for `fixed_step`. -/
def planSelectedDt (dtUsReq timeResolutionNs : ℤ) : ℚ :=
  let resUs : ℚ := timeResolutionNs / 1000
  let q0 : ℤ := if 0 < resUs then roundHalfEven (dtUsReq / resUs) else dtUsReq
  let q : ℤ := if q0 < 1 then 1 else q0
  q * resUs

/-- The `fixed_step` branch of `plan_cpu_sim`: validate `dt_us_req`, quantize
it to the device resolution, and fail when the quantization error exceeds
`epsilon_time_us`. -/
def planFixedStepDt (dtUsReq timeResolutionNs : ℤ) (epsTimeUs : ℚ) :
    Except String ℚ :=
  if dtUsReq < 1 then Except.error "backend.time_config_invalid"
  else if epsTimeUs < |planSelectedDt dtUsReq timeResolutionNs - dtUsReq| then
    Except.error "backend.time_quantization_violation"
  else Except.ok (planSelectedDt dtUsReq timeResolutionNs)

lemma roundHalfEven_dist_le (x : ℚ) :
    |(roundHalfEven x : ℚ) - x| ≤ min (x - ⌊x⌋) ((⌊x⌋ : ℚ) + 1 - x) := by
  have h0 : (⌊x⌋ : ℚ) ≤ x := Int.floor_le x
  have h1 : x < ⌊x⌋ + 1 := Int.lt_floor_add_one x
  unfold roundHalfEven
  split_ifs with hr1 hr2 hpar
  · rw [abs_of_nonpos (by linarith)]
    exact le_min (by linarith) (by linarith)
  · push_cast
    rw [abs_of_nonneg (by push_cast; linarith)]
    exact le_min (by push_cast; linarith) (by push_cast; linarith)
  · rw [abs_of_nonpos (by linarith)]
    exact le_min (by linarith) (by linarith)
  · push_cast
    rw [abs_of_nonneg (by push_cast; linarith)]
    exact le_min (by push_cast; linarith) (by push_cast; linarith)

lemma int_dist_ge (x : ℚ) (m : ℤ) :
    min (x - ⌊x⌋) ((⌊x⌋ : ℚ) + 1 - x) ≤ |(m : ℚ) - x| := by
  have h0 : (⌊x⌋ : ℚ) ≤ x := Int.floor_le x
  have h1 : x < ⌊x⌋ + 1 := Int.lt_floor_add_one x
  rcases le_or_lt m ⌊x⌋ with hm | hm
  · have hmq : (m : ℚ) ≤ ⌊x⌋ := by exact_mod_cast hm
    rw [abs_of_nonpos (by linarith)]
    exact le_trans (min_le_left _ _) (by linarith)
  · have hmq : (⌊x⌋ : ℚ) + 1 ≤ m := by exact_mod_cast hm
    rw [abs_of_nonneg (by linarith)]
    exact le_trans (min_le_right _ _) (by linarith)

lemma roundHalfEven_optimal (x : ℚ) (m : ℤ) :
    |(roundHalfEven x : ℚ) - x| ≤ |(m : ℚ) - x| :=
  le_trans (roundHalfEven_dist_le x) (int_dist_ge x m)

lemma roundHalfEven_nonpos_imp (x : ℚ) (hx : 0 < x) (h : roundHalfEven x ≤ 0) :
    x ≤ 1 / 2 := by
  have h0 : (⌊x⌋ : ℚ) ≤ x := Int.floor_le x
  have h1 : x < ⌊x⌋ + 1 := Int.lt_floor_add_one x
  have hfl : ⌊x⌋ ≤ 1 := by
    by_contra hc
    push_neg at hc
    have : (2 : ℚ) ≤ ⌊x⌋ := by exact_mod_cast hc
    unfold roundHalfEven at h
    split_ifs at h <;> omega
  unfold roundHalfEven at h
  split_ifs at h with hr1 hr2 hpar
  · have : (⌊x⌋ : ℚ) ≤ 0 := by exact_mod_cast h
    linarith
  · have : (⌊x⌋ : ℚ) + 1 ≤ 0 := by exact_mod_cast (by omega : ⌊x⌋ + 1 ≤ 0)
    linarith
  · have : (⌊x⌋ : ℚ) ≤ 0 := by exact_mod_cast h
    linarith
  · have : (⌊x⌋ : ℚ) + 1 ≤ 0 := by exact_mod_cast (by omega : ⌊x⌋ + 1 ≤ 0)
    linarith

/-- Claim C5 (amended): for `fixed_step` with a valid requested
`dt_us_req ≥ 1` and a positive device resolution, the planner selects
`dt_us_sel = q * resolution_us` where `q ≥ 1` is the rounding of
`dt_req / resolution_us` clamped up to 1; the selection is the nearest
multiple of `resolution_us` among multipliers `m ≥ 1` (not among all
multiples: the multiple `0` can be closer), and the planner fails with
`backend.time_quantization_violation` iff
`|dt_sel - dt_req| > epsilon_time_us`. -/
theorem claim5_plan_quantization (dtUsReq timeResolutionNs : ℤ) (epsTimeUs : ℚ)
    (hdt : 1 ≤ dtUsReq) (hres : 1 ≤ timeResolutionNs) :
    (planFixedStepDt dtUsReq timeResolutionNs epsTimeUs =
        Except.error "backend.time_quantization_violation" ↔
      epsTimeUs < |planSelectedDt dtUsReq timeResolutionNs - dtUsReq|) ∧
    (∀ m : ℤ, 1 ≤ m →
      |planSelectedDt dtUsReq timeResolutionNs - dtUsReq| ≤
        |(m : ℚ) * ((timeResolutionNs : ℚ) / 1000) - dtUsReq|) := by
  have hresq : (0 : ℚ) < (timeResolutionNs : ℚ) / 1000 := by
    have : (1 : ℚ) ≤ timeResolutionNs := by exact_mod_cast hres
    positivity
  constructor
  · unfold planFixedStepDt
    rw [if_neg (by omega)]
    constructor
    · intro h
      by_cases hq : epsTimeUs <
          |planSelectedDt dtUsReq timeResolutionNs - dtUsReq|
      · exact hq
      · rw [if_neg hq] at h
        exact absurd h (by simp)
    · intro h
      rw [if_pos h]
  · intro m hm
    have hsel : planSelectedDt dtUsReq timeResolutionNs =
        ((if roundHalfEven ((dtUsReq : ℚ) / ((timeResolutionNs : ℚ) / 1000)) < 1 then (1 : ℤ)
          else roundHalfEven ((dtUsReq : ℚ) / ((timeResolutionNs : ℚ) / 1000))) : ℚ) *
          ((timeResolutionNs : ℚ) / 1000) := by
      simp only [planSelectedDt]
      rw [if_pos hresq]
      split_ifs <;> simp
    have hx : (0 : ℚ) < (dtUsReq : ℚ) / ((timeResolutionNs : ℚ) / 1000) := by
      have : (1 : ℚ) ≤ dtUsReq := by exact_mod_cast hdt
      positivity
    have habs : ∀ z : ℤ, |(z : ℚ) * ((timeResolutionNs : ℚ) / 1000) - dtUsReq| =
        |(z : ℚ) - (dtUsReq : ℚ) / ((timeResolutionNs : ℚ) / 1000)| *
          ((timeResolutionNs : ℚ) / 1000) := by
      intro z
      have hz : (z : ℚ) * ((timeResolutionNs : ℚ) / 1000) - dtUsReq =
          ((z : ℚ) - (dtUsReq : ℚ) / ((timeResolutionNs : ℚ) / 1000)) *
            ((timeResolutionNs : ℚ) / 1000) := by
        field_simp
        ring
      rw [hz, abs_mul, abs_of_pos hresq]
    rw [hsel]
    by_cases hq0 : roundHalfEven ((dtUsReq : ℚ) / ((timeResolutionNs : ℚ) / 1000)) < 1
    · -- the clamp fires: q = 1, and the request is at most resUs / 2
      rw [if_pos hq0]
      have hle : (dtUsReq : ℚ) / ((timeResolutionNs : ℚ) / 1000) ≤ 1 / 2 :=
        roundHalfEven_nonpos_imp _ hx (by omega)
      have h1m : (1 : ℚ) ≤ (m : ℚ) := by exact_mod_cast hm
      rw [habs 1, habs m]
      apply mul_le_mul_of_nonneg_right _ hresq.le
      rw [abs_of_nonneg (by push_cast; linarith), abs_of_nonneg (by linarith)]
      push_cast
      linarith
    · rw [if_neg hq0]
      rw [habs _, habs m]
      exact mul_le_mul_of_nonneg_right (roundHalfEven_optimal _ m) hresq.le

lemma planSelectedDt_100_1500 : planSelectedDt 100 1500 = 201 / 2 := by
  have hx : (100 : ℚ) / ((1500 : ℚ) / 1000) = 200 / 3 := by norm_num
  have hfloor : ⌊(200 : ℚ) / 3⌋ = 66 := by
    rw [Int.floor_eq_iff]
    norm_num
  have hrhe : roundHalfEven ((200 : ℚ) / 3) = 67 := by
    unfold roundHalfEven
    rw [hfloor]
    norm_num
  simp only [planSelectedDt]
  push_cast
  rw [hx, hrhe]
  norm_num

/-- Witness for C5 at the spec's planner-rejection scenario:
`fixed_step_dt_us = 100`, `epsilon_time_us = 0`, `time_resolution_ns = 1500`
fails with `backend.time_quantization_violation` (the quantized dt is
100.5 µs, error 0.5 µs > 0). -/
theorem claim5_plan_quantization_witness :
    (1 : ℤ) ≤ 100 ∧ (1 : ℤ) ≤ 1500 ∧
    ((planFixedStepDt 100 1500 0 =
        Except.error "backend.time_quantization_violation" ↔
      (0 : ℚ) < |planSelectedDt 100 1500 - 100|) ∧
     (∀ m : ℤ, 1 ≤ m → |planSelectedDt 100 1500 - 100| ≤
        |(m : ℚ) * ((1500 : ℚ) / 1000) - 100|)) ∧
    planFixedStepDt 100 1500 0 =
      Except.error "backend.time_quantization_violation" := by
  refine ⟨by norm_num, by norm_num,
    claim5_plan_quantization 100 1500 0 (by norm_num) (by norm_num), ?_⟩
  have h := (claim5_plan_quantization 100 1500 0 (by norm_num) (by norm_num)).1
  rw [h, planSelectedDt_100_1500]
  push_cast
  rw [show |(201 : ℚ) / 2 - 100| = 1 / 2 by norm_num [abs_of_nonneg]]
  norm_num

/-- Claim C5 counterexample: with `dt_us_req = 1` and
`time_resolution_ns = 3000` (resolution 3 µs) the planner selects 3 µs,
although the multiple `0 * 3 = 0` of the resolution is strictly closer to
the request; the selection is therefore not the nearest multiple of
`resolution_us`, because the multiplier is clamped to at least 1. -/
theorem claim5_counterexample :
    planSelectedDt 1 3000 = 3 ∧
    planFixedStepDt 1 3000 100 = Except.ok 3 ∧
    (0 : ℚ) = 0 * ((3000 : ℚ) / 1000) ∧
    |(0 : ℚ) * ((3000 : ℚ) / 1000) - 1| < |planSelectedDt 1 3000 - 1| := by
  have hx : (1 : ℚ) / ((3000 : ℚ) / 1000) = 1 / 3 := by norm_num
  have hfloor : ⌊(1 : ℚ) / 3⌋ = 0 := by
    rw [Int.floor_eq_iff]
    norm_num
  have hrhe : roundHalfEven ((1 : ℚ) / 3) = 0 := by
    unfold roundHalfEven
    rw [hfloor]
    norm_num
  have hsel : planSelectedDt 1 3000 = 3 := by
    simp only [planSelectedDt]
    push_cast
    rw [hx, hrhe]
    norm_num
  refine ⟨hsel, ?_, by norm_num, ?_⟩
  · unfold planFixedStepDt
    rw [if_neg (by omega), hsel]
    push_cast
    rw [show |(3 : ℚ) - 1| = 2 by norm_num [abs_of_nonneg]]
    norm_num
  · rw [hsel]
    push_cast
    rw [show |(0 : ℚ) * ((3000 : ℚ) / 1000) - 1| = 1 by norm_num [abs_of_nonpos]]
    rw [show |(3 : ℚ) - 1| = 2 by norm_num [abs_of_nonneg]]
    norm_num

/-! ## Spatial shift (`step_shift_xy` in `eir/ops.py`)

```
for t, ch, val, meta in inputs:
    if ch < 0:
        continue
    x = ch % width
    y = ch // width
    nx = min(max(x + dx, 0), max_x)
    ny = min(max(y + dy, 0), max_y)
    ch_out = ny * width + nx
    yield (t, ch_out, val, meta)
```
with `max_x = width - 1`, `max_y = height - 1`.  Python `%` and `//` are
floor modulo and floor division, i.e. `Int.fmod` and `Int.fdiv`. -/

/-- The output channel computed by `step_shift_xy` for one input channel. -/
def shiftChannel (dx dy width height ch : ℤ) : ℤ :=
  let x := ch.fmod width
  let y := ch.fdiv width
  let nx := min (max (x + dx) 0) (width - 1)
  let ny := min (max (y + dy) 0) (height - 1)
  ny * width + nx

/-- `step_shift_xy`: drop events with negative channel, clamp the shifted
coordinates into `[0, width-1] × [0, height-1]`, and re-emit at the same
timestamp and value. -/
def stepShiftXY (dx dy width height : ℤ) (l : List (Ev α)) : List (Ev α) :=
  l.filterMap (fun e =>
    if e.ch < 0 then none
    else some ⟨e.t, shiftChannel dx dy width height e.ch, e.v⟩)

/-- Claim C10: with `width ≥ 1` and `height ≥ 1`, `step_shift_xy` silently
drops an event exactly when its channel is negative, and otherwise emits it
with the same timestamp and value and an output channel in
`[0, width*height - 1]`; in particular a channel `≥ width*height` is not
rejected but remapped into bounds by clamping. -/
theorem claim10_shift_xy_bounds (dx dy width height : ℤ)
    (hw : 1 ≤ width) (hh : 1 ≤ height) (e : Ev α) :
    (e.ch < 0 → stepShiftXY dx dy width height [e] = []) ∧
    (0 ≤ e.ch →
      stepShiftXY dx dy width height [e] =
        [⟨e.t, shiftChannel dx dy width height e.ch, e.v⟩] ∧
      0 ≤ shiftChannel dx dy width height e.ch ∧
      shiftChannel dx dy width height e.ch ≤ width * height - 1) := by
  constructor
  · intro h
    simp [stepShiftXY, h]
  · intro h
    have hnx : 0 ≤ min (max (e.ch.fmod width + dx) 0) (width - 1) ∧
        min (max (e.ch.fmod width + dx) 0) (width - 1) ≤ width - 1 := by
      omega
    have hny : 0 ≤ min (max (e.ch.fdiv width + dy) 0) (height - 1) ∧
        min (max (e.ch.fdiv width + dy) 0) (height - 1) ≤ height - 1 := by
      omega
    refine ⟨by simp [stepShiftXY, not_lt.mpr h], ?_, ?_⟩
    · simp only [shiftChannel]
      have := mul_nonneg hny.1 (by omega : (0:ℤ) ≤ width)
      omega
    · simp only [shiftChannel]
      have h1 : min (max (e.ch.fdiv width + dy) 0) (height - 1) * width ≤
          (height - 1) * width :=
        mul_le_mul_of_nonneg_right hny.2 (by omega)
      have h2 : (height - 1) * width = height * width - width := by ring
      have h3 : height * width = width * height := by ring
      omega

/-- Witness for C10: a 2x2 grid with shift (1, 0) applied to an event on
channel 5, which is outside the 4-channel grid; it is clamped to channel 3
rather than rejected, and a negative channel is dropped. -/
theorem claim10_shift_xy_bounds_witness :
    (1:ℤ) ≤ 2 ∧ (1:ℤ) ≤ 2 ∧
    (((⟨7, -1, 9⟩ : Ev ℤ).ch < 0 → stepShiftXY 1 0 2 2 [(⟨7, -1, 9⟩ : Ev ℤ)] = []) ∧
     (0 ≤ (⟨7, -1, 9⟩ : Ev ℤ).ch →
        stepShiftXY 1 0 2 2 [(⟨7, -1, 9⟩ : Ev ℤ)] =
          [⟨(7:ℤ), shiftChannel 1 0 2 2 (-1), (9:ℤ)⟩] ∧
        0 ≤ shiftChannel 1 0 2 2 (-1) ∧
        shiftChannel 1 0 2 2 (-1) ≤ 2 * 2 - 1)) ∧
    (((⟨7, 5, 9⟩ : Ev ℤ).ch < 0 → stepShiftXY 1 0 2 2 [(⟨7, 5, 9⟩ : Ev ℤ)] = []) ∧
     (0 ≤ (⟨7, 5, 9⟩ : Ev ℤ).ch →
        stepShiftXY 1 0 2 2 [(⟨7, 5, 9⟩ : Ev ℤ)] =
          [⟨(7:ℤ), shiftChannel 1 0 2 2 5, (9:ℤ)⟩] ∧
        0 ≤ shiftChannel 1 0 2 2 5 ∧
        shiftChannel 1 0 2 2 5 ≤ 2 * 2 - 1)) ∧
    shiftChannel 1 0 2 2 5 = 3 :=
  ⟨by decide, by decide,
   claim10_shift_xy_bounds 1 0 2 2 (by decide) (by decide) ⟨7, -1, 9⟩,
   claim10_shift_xy_bounds 1 0 2 2 (by decide) (by decide) ⟨7, 5, 9⟩,
   by decide⟩

/-! ## LIF neuron (`step_lif` in `eir/ops.py`)

```
for t, ch, val, meta in inputs:
    if state.tau_m_ns <= 0: alpha = 0.0
    else: dt = max(0, t - state.t_prev_ns); alpha = pow(2.71828, -dt / state.tau_m_ns)
    state.v = state.v * alpha + state.r_m * val
    state.t_prev_ns = t
    # Block spikes at or within the refractory interval (<=) ...
    if t - state.t_last_spike_ns <= state.ref_ns: continue
    if state.v >= state.v_th:
        state.v, state.t_last_spike_ns = state.v_reset, t
        yield (t, 0, 1.0, {"unit":"spike"})
```
Note the decay base: the code computes `pow(2.71828, ...)` with the literal
`2.71828`, not the exponential function `exp`. -/

/-- The mutable LIF state (`LIFState.__init__` sets
`v = 0.0, t_last_spike_ns = -10**18, t_prev_ns = 0`). -/
structure LIFState where
  v : ℝ
  tLastSpikeNs : ℤ
  tPrevNs : ℤ
  refNs : ℤ
  tauMNs : ℤ
  rM : ℝ
  vTh : ℝ
  vReset : ℝ

/-- The decay factor `alpha` computed by `step_lif` for an input at time
`t`: `0` when `tau_m_ns <= 0`, otherwise `2.71828 ** (-max(0, t - t_prev) / tau_m)`. -/
noncomputable def lifAlpha (s : LIFState) (t : ℤ) : ℝ :=
  if s.tauMNs ≤ 0 then 0
  else (2.71828 : ℝ) ^ (-((max 0 (t - s.tPrevNs) : ℤ) : ℝ) / (s.tauMNs : ℝ))

/-- One iteration of the `step_lif` loop: decay-and-integrate, update
`t_prev`, apply the refractory guard, and spike/reset when `v >= v_th`. -/
noncomputable def stepLifOne (s : LIFState) (e : Ev ℝ) : LIFState × List (Ev ℝ) :=
  let v1 := s.v * lifAlpha s e.t + s.rM * e.v
  if e.t - s.tLastSpikeNs ≤ s.refNs then
    ({ s with v := v1, tPrevNs := e.t }, [])
  else if s.vTh ≤ v1 then
    ({ s with v := s.vReset, tPrevNs := e.t, tLastSpikeNs := e.t }, [⟨e.t, 0, 1⟩])
  else
    ({ s with v := v1, tPrevNs := e.t }, [])

/-- `step_lif` over a whole input stream. -/
noncomputable def runLif (s : LIFState) : List (Ev ℝ) → LIFState × List (Ev ℝ)
  | [] => (s, [])
  | e :: rest =>
    let p := stepLifOne s e
    let q := runLif p.1 rest
    (q.1, p.2 ++ q.2)

/-- Claim C1 (amended): on each input event `(t, _, x, _)` the LIF operator
computes the decay factor `alpha = 2.71828 ^ (-max(0, t - t_prev)/tau_m)` —
a power of the literal constant 2.71828, not of `e` — with `alpha = 0` when
`tau_m = 0`; it updates `v` to `v*alpha + r_m*x` and `t_prev` to `t`; then,
if not refractory-blocked and `v >= v_th`, it emits one spike `(t, 0, 1.0)`
and resets `v` to `v_reset` and `t_lastsp` to `t`. -/
theorem claim1_lif_step (s : LIFState) (e : Ev ℝ) (l : List (Ev ℝ))
    (hτ : 0 ≤ s.tauMNs) :
    lifAlpha s e.t = (if s.tauMNs = 0 then (0 : ℝ)
      else (2.71828 : ℝ) ^ (-((max 0 (e.t - s.tPrevNs) : ℤ) : ℝ) / (s.tauMNs : ℝ))) ∧
    (e.t - s.tLastSpikeNs ≤ s.refNs →
      runLif s (e :: l) =
        ((runLif { s with v := s.v * lifAlpha s e.t + s.rM * e.v, tPrevNs := e.t } l).1,
         (runLif { s with v := s.v * lifAlpha s e.t + s.rM * e.v, tPrevNs := e.t } l).2)) ∧
    (s.refNs < e.t - s.tLastSpikeNs → s.vTh ≤ s.v * lifAlpha s e.t + s.rM * e.v →
      runLif s (e :: l) =
        ((runLif { s with v := s.vReset, tPrevNs := e.t, tLastSpikeNs := e.t } l).1,
         ⟨e.t, 0, 1⟩ ::
           (runLif { s with v := s.vReset, tPrevNs := e.t, tLastSpikeNs := e.t } l).2)) ∧
    (s.refNs < e.t - s.tLastSpikeNs → s.v * lifAlpha s e.t + s.rM * e.v < s.vTh →
      runLif s (e :: l) =
        ((runLif { s with v := s.v * lifAlpha s e.t + s.rM * e.v, tPrevNs := e.t } l).1,
         (runLif { s with v := s.v * lifAlpha s e.t + s.rM * e.v, tPrevNs := e.t } l).2)) := by
  refine ⟨?_, ?_, ?_, ?_⟩
  · unfold lifAlpha
    by_cases h : s.tauMNs = 0
    · rw [if_pos (by omega), if_pos h]
    · rw [if_neg (by omega), if_neg h]
  · intro hb
    show (let p := stepLifOne s e; let q := runLif p.1 l; (q.1, p.2 ++ q.2)) = _
    unfold stepLifOne
    rw [if_pos hb]
    simp
  · intro hb hv
    show (let p := stepLifOne s e; let q := runLif p.1 l; (q.1, p.2 ++ q.2)) = _
    unfold stepLifOne
    rw [if_neg (by omega), if_pos hv]
    simp
  · intro hb hv
    show (let p := stepLifOne s e; let q := runLif p.1 l; (q.1, p.2 ++ q.2)) = _
    unfold stepLifOne
    rw [if_neg (by omega), if_neg (not_le.mpr hv)]
    simp

/-- Witness for C1 at a concrete state and event. -/
theorem claim1_lif_step_witness :
    (0 : ℤ) ≤ (⟨0, -(10^18), 0, 2000000, 0, 1, 1, 0⟩ : LIFState).tauMNs ∧
    (lifAlpha ⟨0, -(10^18), 0, 2000000, 0, 1, 1, 0⟩ (5 : ℤ) =
      (if (⟨0, -(10^18), 0, 2000000, 0, 1, 1, 0⟩ : LIFState).tauMNs = 0 then (0 : ℝ)
       else (2.71828 : ℝ) ^
        (-((max 0 ((5 : ℤ) - (⟨0, -(10^18), 0, 2000000, 0, 1, 1, 0⟩ : LIFState).tPrevNs) : ℤ) : ℝ) /
          ((⟨0, -(10^18), 0, 2000000, 0, 1, 1, 0⟩ : LIFState).tauMNs : ℝ)))) := by
  refine ⟨by norm_num, ?_⟩
  have h := (claim1_lif_step ⟨0, -(10^18), 0, 2000000, 0, 1, 1, 0⟩ ⟨5, 0, 2⟩ []
    (by norm_num)).1
  exact h

/-- Claim C1 counterexample: the decay factor is a power of the literal
2.71828, which differs from the exponential: at `tau_m = 1`, `t_prev = 0`,
`t = 1` the code computes `2.71828⁻¹`, while `exp(-1) = e⁻¹` with
`e > 2.7182818283 > 2.71828`. -/
theorem claim1_counterexample :
    lifAlpha ⟨1, -1, 0, 0, 1, 1, 1, 0⟩ 1 ≠
      Real.exp (-((max 0 ((1 : ℤ) - 0) : ℤ) : ℝ) / ((1 : ℤ) : ℝ)) := by
  have harg : (-((max 0 ((1 : ℤ) - 0) : ℤ) : ℝ) / ((1 : ℤ) : ℝ)) = -1 := by norm_num
  have hlhs : lifAlpha ⟨1, -1, 0, 0, 1, 1, 1, 0⟩ 1 = (2.71828 : ℝ) ^ (-1 : ℝ) := by
    unfold lifAlpha
    rw [if_neg (by norm_num)]
    norm_num
  have hpow : (2.71828 : ℝ) ^ (-1 : ℝ) = (2.71828 : ℝ)⁻¹ := by
    rw [show (-1 : ℝ) = ((-1 : ℤ) : ℝ) by norm_num, Real.rpow_intCast]
    norm_num
  have hexp : Real.exp (-1) = (Real.exp 1)⁻¹ := by
    rw [← Real.exp_neg]
  have hlt : (2.71828 : ℝ) < Real.exp 1 :=
    lt_trans (by norm_num) Real.exp_one_gt_d9
  have hinv : (Real.exp 1)⁻¹ < (2.71828 : ℝ)⁻¹ := by
    apply inv_lt_inv_of_lt (by norm_num) hlt
  rw [hlhs, hpow, harg, hexp]
  exact fun hcontra => absurd hcontra.symm (ne_of_lt hinv)

lemma runLif_spike_times (s : LIFState) (l : List (Ev ℝ)) (href : 0 ≤ s.refNs) :
    (((runLif s l).2.map Ev.t).Chain' (· < ·)) ∧
    (∀ x ∈ (runLif s l).2, s.tLastSpikeNs < x.t ∧
      x.t ≤ (runLif s l).1.tLastSpikeNs) ∧
    s.tLastSpikeNs ≤ (runLif s l).1.tLastSpikeNs ∧
    (runLif s l).1.refNs = s.refNs := by
  induction l generalizing s with
  | nil => exact ⟨by simp [runLif], by simp [runLif], le_refl _, rfl⟩
  | cons e rest ih =>
    have hstep : runLif s (e :: rest) =
        ((runLif (stepLifOne s e).1 rest).1,
         (stepLifOne s e).2 ++ (runLif (stepLifOne s e).1 rest).2) := rfl
    simp only [stepLifOne] at hstep
    by_cases hb : e.t - s.tLastSpikeNs ≤ s.refNs
    · rw [if_pos hb] at hstep
      rw [hstep]
      obtain ⟨ih1, ih2, ih3, ih4⟩ :=
        ih { s with v := s.v * lifAlpha s e.t + s.rM * e.v, tPrevNs := e.t } href
      exact ⟨by simpa using ih1, by simpa using ih2, ih3, ih4⟩
    · by_cases hv : s.vTh ≤ s.v * lifAlpha s e.t + s.rM * e.v
      · rw [if_neg hb, if_pos hv] at hstep
        obtain ⟨ih1, ih2, ih3, ih4⟩ :=
          ih { s with v := s.vReset, tPrevNs := e.t, tLastSpikeNs := e.t } href
        have het : s.tLastSpikeNs < e.t := by omega
        rw [hstep]
        dsimp only
        refine ⟨?_, ?_, ?_, ih4⟩
        · simp only [List.singleton_append, List.map_cons]
          rw [List.chain'_cons']
          refine ⟨?_, ih1⟩
          intro y hy
          cases hrec : (runLif
              { s with v := s.vReset, tPrevNs := e.t, tLastSpikeNs := e.t } rest).2 with
          | nil => rw [hrec] at hy; simp at hy
          | cons a tl =>
            rw [hrec] at hy
            simp only [List.map_cons, List.head?_cons, Option.mem_def,
              Option.some.injEq] at hy
            subst hy
            have ha := ih2 a (by rw [hrec]; exact List.mem_cons_self _ _)
            simpa using ha.1
        · intro x hx
          simp only [List.singleton_append] at hx
          rcases List.mem_cons.mp hx with rfl | hx
          · refine ⟨by simpa using het, ?_⟩
            simpa using ih3
          · have h2 := ih2 x hx
            refine ⟨lt_trans het (by simpa using h2.1), h2.2⟩
        · calc s.tLastSpikeNs ≤ e.t := le_of_lt het
            _ ≤ _ := by simpa using ih3
      · rw [if_neg hb, if_neg hv] at hstep
        rw [hstep]
        obtain ⟨ih1, ih2, ih3, ih4⟩ :=
          ih { s with v := s.v * lifAlpha s e.t + s.rM * e.v, tPrevNs := e.t } href
        exact ⟨by simpa using ih1, by simpa using ih2, ih3, ih4⟩

/-- Claim C9 (amended): with `refractory = 0` (indeed any refractory ≥ 0)
the LIF operator never emits two spikes at the same timestamp: the `<=`
refractory guard blocks any event whose time does not strictly exceed the
last spike time, so output spike times are strictly increasing. -/
theorem claim9_lif_no_double_spike (s : LIFState) (l : List (Ev ℝ))
    (href : 0 ≤ s.refNs) :
    (((runLif s l).2.map Ev.t).Chain' (· < ·)) ∧
    (∀ x ∈ (runLif s l).2, s.tLastSpikeNs < x.t) := by
  obtain ⟨h1, h2, _, _⟩ := runLif_spike_times s l href
  exact ⟨h1, fun x hx => (h2 x hx).1⟩

/-- Witness for C9 at the fresh LIF state and two equal-time suprathreshold
events. -/
theorem claim9_lif_no_double_spike_witness :
    (0 : ℤ) ≤ (⟨0, -(10^18), 0, 0, 0, 1, 1, 0⟩ : LIFState).refNs ∧
    ((((runLif ⟨0, -(10^18), 0, 0, 0, 1, 1, 0⟩
        [⟨5, 0, 2⟩, ⟨5, 0, 2⟩]).2.map Ev.t).Chain' (· < ·)) ∧
     (∀ x ∈ (runLif ⟨0, -(10^18), 0, 0, 0, 1, 1, 0⟩ [⟨5, 0, 2⟩, ⟨5, 0, 2⟩]).2,
        (⟨0, -(10^18), 0, 0, 0, 1, 1, 0⟩ : LIFState).tLastSpikeNs < x.t)) :=
  ⟨by norm_num,
   claim9_lif_no_double_spike ⟨0, -(10^18), 0, 0, 0, 1, 1, 0⟩
     [⟨5, 0, 2⟩, ⟨5, 0, 2⟩] (by norm_num)⟩

/-- Claim C9 counterexample: with `tau_m = 0`, `r_m = 1`, `v_th = 1`,
`refractory = 0`, two events at t = 5 each drive the membrane to 2 ≥ v_th
(also after the reset), yet only one spike is emitted: the second event is
blocked by the `<=` refractory guard, so no input stream produces
back-to-back spikes at the same timestamp. -/
theorem claim9_counterexample :
    (runLif ⟨0, -(10^18), 0, 0, 0, 1, 1, 0⟩ [⟨5, 0, 2⟩, ⟨5, 0, 2⟩]).2 =
      [⟨5, 0, 1⟩] := by
  have hstep1 : stepLifOne ⟨0, -(10^18), 0, 0, 0, 1, 1, 0⟩ ⟨5, 0, 2⟩ =
      (⟨0, 5, 5, 0, 0, 1, 1, 0⟩, [⟨5, 0, 1⟩]) := by
    simp only [stepLifOne, lifAlpha]
    norm_num
  have hstep2 : stepLifOne ⟨0, 5, 5, 0, 0, 1, 1, 0⟩ ⟨5, 0, 2⟩ =
      (⟨0 * 0 + 1 * 2, 5, 5, 0, 0, 1, 1, 0⟩, []) := by
    simp only [stepLifOne, lifAlpha]
    norm_num
  simp only [runLif, hstep1, hstep2]
  simp

/-! ## Coincidence fuse (`_fuse` in `runtime/scheduler.py`)

```
while heap:
    t, (src, ev) = heapq.heappop(heap)
    buf = buf_a if src == "a" else buf_b
    buf.append(ev)
    cutoff = t - win
    buf_a[:] = [e for e in buf_a if e[0] >= cutoff]
    buf_b[:] = [e for e in buf_b if e[0] >= cutoff]
    if len(buf_a) + len(buf_b) >= minc and buf_a and buf_b:
        yield (t, 0, 1.0, {"unit": "coincidence"})
```
All events are pushed with key `(t, (src, event))`, so for sorted inputs the
pop order is the timestamp-merge of the two streams with stream `"a"`
before `"b"` on equal timestamps. -/

/-- Merge the two fuse input streams by timestamp, stream `a` before
stream `b` on ties (tag `false` = stream `a`, `true` = stream `b`). -/
def fuseMerge {β : Type} : List (Ev β) → List (Ev β) → List (Ev β × Bool)
  | [], bs => bs.map (fun e => (e, true))
  | a :: as, [] => (a, false) :: fuseMerge as []
  | a :: as, b :: bs =>
    if a.t ≤ b.t then (a, false) :: fuseMerge as (b :: bs)
    else (b, true) :: fuseMerge (a :: as) bs
termination_by as bs => as.length + bs.length

/-- The `_fuse` loop over the merged arrival sequence, carrying the two
buffers: append the arrival to its buffer, evict entries with timestamp
below `t - window` from both buffers, and emit `(t, 0, 1.0)` when both
buffers are non-empty and together hold at least `min_count` events. -/
def fuseLoop {β : Type} [One β] (winNs minCount : ℤ) :
    List (Ev β) → List (Ev β) → List (Ev β × Bool) → List (Ev β)
  | _, _, [] => []
  | bufA, bufB, (e, tag) :: rest =>
    let bufA1 := if tag then bufA else bufA ++ [e]
    let bufB1 := if tag then bufB ++ [e] else bufB
    let bufA2 := bufA1.filter (fun x => e.t - winNs ≤ x.t)
    let bufB2 := bufB1.filter (fun x => e.t - winNs ≤ x.t)
    (if minCount ≤ (bufA2.length : ℤ) + (bufB2.length : ℤ) ∧
        1 ≤ bufA2.length ∧ 1 ≤ bufB2.length then [⟨e.t, 0, 1⟩] else []) ++
      fuseLoop winNs minCount bufA2 bufB2 rest

/-- The coincidence fuse on two input streams. -/
def fuse {β : Type} [One β] (winNs minCount : ℤ) (a b : List (Ev β)) :
    List (Ev β) :=
  fuseLoop winNs minCount [] [] (fuseMerge a b)

/-- Declarative description of the fuse, following the claim: on the i-th
merged arrival at time `t`, the stream-`a` (resp. `b`) buffer holds exactly
the `a`-arrivals (resp. `b`-arrivals) among the first `i+1` merged arrivals
whose timestamps lie in the window `[t - window, t]`, and one event
`(t, 0, 1.0)` is emitted iff both buffers are non-empty and their combined
size is at least `min_count`. -/
def fuseSpecGo {β : Type} [One β] (winNs minCount : ℤ)
    (pre : List (Ev β × Bool)) : List (Ev β × Bool) → List (Ev β)
  | [] => []
  | (e, tag) :: rest =>
    let pre1 := pre ++ [(e, tag)]
    let cA := (pre1.filter (fun p => p.2 = false ∧ e.t - winNs ≤ p.1.t)).length
    let cB := (pre1.filter (fun p => p.2 = true ∧ e.t - winNs ≤ p.1.t)).length
    (if minCount ≤ (cA : ℤ) + (cB : ℤ) ∧ 1 ≤ cA ∧ 1 ≤ cB then [⟨e.t, 0, 1⟩]
     else []) ++ fuseSpecGo winNs minCount pre1 rest

/-- The declarative fuse over the merged arrivals, starting from an empty
history. -/
def fuseSpec {β : Type} [One β] (winNs minCount : ℤ) (a b : List (Ev β)) :
    List (Ev β) :=
  fuseSpecGo winNs minCount [] (fuseMerge a b)

lemma fuseMerge_mem {β : Type} :
    ∀ (a b : List (Ev β)) (p : Ev β × Bool), p ∈ fuseMerge a b →
      (p.1 ∈ a ∧ p.2 = false) ∨ (p.1 ∈ b ∧ p.2 = true) := by
  intro a
  induction a with
  | nil =>
    intro b p hp
    simp only [fuseMerge] at hp
    obtain ⟨e, he, rfl⟩ := List.mem_map.mp hp
    exact Or.inr ⟨he, rfl⟩
  | cons x as iha =>
    intro b
    induction b with
    | nil =>
      intro p hp
      rw [fuseMerge] at hp
      rcases List.mem_cons.mp hp with rfl | hp
      · exact Or.inl ⟨List.mem_cons_self _ _, rfl⟩
      · rcases iha [] p hp with ⟨h1, h2⟩ | ⟨h1, _⟩
        · exact Or.inl ⟨List.mem_cons_of_mem _ h1, h2⟩
        · simp at h1
    | cons y bs ihb =>
      intro p hp
      rw [fuseMerge] at hp
      by_cases hxy : x.t ≤ y.t
      · rw [if_pos hxy] at hp
        rcases List.mem_cons.mp hp with rfl | hp
        · exact Or.inl ⟨List.mem_cons_self _ _, rfl⟩
        · rcases iha (y :: bs) p hp with ⟨h1, h2⟩ | ⟨h1, h2⟩
          · exact Or.inl ⟨List.mem_cons_of_mem _ h1, h2⟩
          · exact Or.inr ⟨h1, h2⟩
      · rw [if_neg hxy] at hp
        rcases List.mem_cons.mp hp with rfl | hp
        · exact Or.inr ⟨List.mem_cons_self _ _, rfl⟩
        · rcases ihb p hp with ⟨h1, h2⟩ | ⟨h1, h2⟩
          · exact Or.inl ⟨h1, h2⟩
          · exact Or.inr ⟨List.mem_cons_of_mem _ h1, h2⟩

lemma fuseMerge_pairwise {β : Type} :
    ∀ (a b : List (Ev β)),
      a.Pairwise (fun x y => x.t ≤ y.t) → b.Pairwise (fun x y => x.t ≤ y.t) →
      (fuseMerge a b).Pairwise (fun p q => p.1.t ≤ q.1.t) := by
  intro a
  induction a with
  | nil =>
    intro b _ hb
    simp only [fuseMerge]
    exact hb.map _ (fun x y h => h)
  | cons x as iha =>
    intro b
    induction b with
    | nil =>
      intro ha _
      rw [fuseMerge]
      rw [List.pairwise_cons]
      refine ⟨?_, iha [] (List.pairwise_cons.mp ha).2 List.Pairwise.nil⟩
      intro p hp
      rcases fuseMerge_mem as [] p hp with ⟨h1, _⟩ | ⟨h1, _⟩
      · exact (List.pairwise_cons.mp ha).1 p.1 h1
      · simp at h1
    | cons y bs ihb =>
      intro ha hb
      rw [fuseMerge]
      by_cases hxy : x.t ≤ y.t
      · rw [if_pos hxy]
        rw [List.pairwise_cons]
        refine ⟨?_, iha (y :: bs) (List.pairwise_cons.mp ha).2 hb⟩
        intro p hp
        rcases fuseMerge_mem as (y :: bs) p hp with ⟨h1, _⟩ | ⟨h1, _⟩
        · exact (List.pairwise_cons.mp ha).1 p.1 h1
        · rcases List.mem_cons.mp h1 with rfl | h1
          · exact hxy
          · exact le_trans hxy ((List.pairwise_cons.mp hb).1 p.1 h1)
      · rw [if_neg hxy]
        rw [List.pairwise_cons]
        refine ⟨?_, ihb ha (List.pairwise_cons.mp hb).2⟩
        intro p hp
        show y.t ≤ p.1.t
        rcases fuseMerge_mem (x :: as) bs p hp with ⟨h1, _⟩ | ⟨h1, _⟩
        · rcases List.mem_cons.mp h1 with h1 | h1
          · rw [h1]; omega
          · have := (List.pairwise_cons.mp ha).1 p.1 h1
            omega
        · exact (List.pairwise_cons.mp hb).1 p.1 h1

lemma buffer_step {β : Type} (pre : List (Ev β × Bool)) (t0 t1 winNs : ℤ)
    (h01 : t0 ≤ t1) (tg : Bool) :
    (((pre.filter (fun p => p.2 = tg ∧ t0 - winNs ≤ p.1.t)).map Prod.fst).filter
        (fun x => t1 - winNs ≤ x.t)) =
      ((pre.filter (fun p => p.2 = tg ∧ t1 - winNs ≤ p.1.t)).map Prod.fst) := by
  rw [List.filter_map]
  congr 1
  rw [List.filter_filter]
  apply List.filter_congr
  intro p _
  by_cases h1 : p.2 = tg
  · by_cases h2 : t1 - winNs ≤ p.1.t
    · have h3 : t0 - winNs ≤ p.1.t := by omega
      simp [h1, h2, h3, Function.comp]
    · simp [h1, h2, Function.comp]
  · simp [h1, Function.comp]

lemma if_bool_true {γ : Type} (a b : γ) : (if true = true then a else b) = a := rfl

lemma if_bool_false {γ : Type} (a b : γ) : (if false = true then a else b) = b := rfl

lemma filter_singleton_pair {β : Type} (e : Ev β) (tg : Bool) (c : ℤ) :
    [e].filter (fun x => c ≤ x.t) =
      (([(e, tg)].filter (fun p => p.2 = tg ∧ c ≤ p.1.t)).map Prod.fst) := by
  by_cases h : c ≤ e.t
  · have h1 : (decide (c ≤ e.t)) = true := decide_eq_true h
    have h2 : (decide ((e, tg).2 = tg ∧ c ≤ (e, tg).1.t)) = true :=
      decide_eq_true ⟨rfl, h⟩
    simp only [List.filter_cons, List.filter_nil, h1, h2]
    simp
    rw [if_pos h]
    rfl
  · have h1 : (decide (c ≤ e.t)) = false := decide_eq_false h
    have h2 : (decide ((e, tg).2 = tg ∧ c ≤ (e, tg).1.t)) = false :=
      decide_eq_false (fun hc => h hc.2)
    simp only [List.filter_cons, List.filter_nil, h1, h2]
    simp
    omega

lemma filter_singleton_pair_other {β : Type} (e : Ev β) (tg : Bool) (c : ℤ) :
    (([(e, !tg)].filter (fun p => p.2 = tg ∧ c ≤ p.1.t)).map Prod.fst) = [] := by
  have h2 : (decide ((e, !tg).2 = tg ∧ c ≤ (e, !tg).1.t)) = false :=
    decide_eq_false (fun hc => by
      have := hc.1
      cases tg <;> simp_all)
  simp only [List.filter_cons, List.filter_nil, h2]
  simp

lemma fuseLoop_spec {β : Type} [One β] (winNs minCount : ℤ) :
    ∀ (rest pre : List (Ev β × Bool)) (t0 : ℤ),
      (∀ p ∈ pre, p.1.t ≤ t0) →
      (∀ p ∈ rest, t0 ≤ p.1.t) →
      rest.Pairwise (fun p q => p.1.t ≤ q.1.t) →
      fuseLoop winNs minCount
        ((pre.filter (fun p => p.2 = false ∧ t0 - winNs ≤ p.1.t)).map Prod.fst)
        ((pre.filter (fun p => p.2 = true ∧ t0 - winNs ≤ p.1.t)).map Prod.fst)
        rest
      = fuseSpecGo winNs minCount pre rest := by
  intro rest
  induction rest with
  | nil =>
    intro pre t0 _ _ _
    rfl
  | cons hd rest ih =>
    obtain ⟨e, tag⟩ := hd
    intro pre t0 hpre hrest hpw
    have het : t0 ≤ e.t := hrest (e, tag) (List.mem_cons_self _ _)
    -- the evicted buffers after this arrival are the window-filtered
    -- extended history
    have hA : ((if tag then
          ((pre.filter (fun p => p.2 = false ∧ t0 - winNs ≤ p.1.t)).map Prod.fst)
        else
          ((pre.filter (fun p => p.2 = false ∧ t0 - winNs ≤ p.1.t)).map Prod.fst)
            ++ [e]).filter (fun x => e.t - winNs ≤ x.t)) =
        (((pre ++ [(e, tag)]).filter
          (fun p => p.2 = false ∧ e.t - winNs ≤ p.1.t)).map Prod.fst) := by
      have hrhs : (((pre ++ [(e, tag)]).filter
          (fun p => p.2 = false ∧ e.t - winNs ≤ p.1.t)).map Prod.fst) =
          ((pre.filter (fun p => p.2 = false ∧ e.t - winNs ≤ p.1.t)).map Prod.fst)
            ++ (([(e, tag)].filter
              (fun p => p.2 = false ∧ e.t - winNs ≤ p.1.t)).map Prod.fst) := by
        rw [List.filter_append, List.map_append]
      rw [hrhs]
      cases tag with
      | false =>
        rw [if_bool_false, List.filter_append,
          buffer_step pre t0 e.t winNs het false,
          filter_singleton_pair e false (e.t - winNs)]
      | true =>
        rw [if_bool_true, buffer_step pre t0 e.t winNs het false,
          show ((true : Bool)) = !false from rfl,
          filter_singleton_pair_other e false (e.t - winNs), List.append_nil]
    have hB : ((if tag then
          ((pre.filter (fun p => p.2 = true ∧ t0 - winNs ≤ p.1.t)).map Prod.fst)
            ++ [e]
        else
          ((pre.filter (fun p => p.2 = true ∧ t0 - winNs ≤ p.1.t)).map
            Prod.fst)).filter (fun x => e.t - winNs ≤ x.t)) =
        (((pre ++ [(e, tag)]).filter
          (fun p => p.2 = true ∧ e.t - winNs ≤ p.1.t)).map Prod.fst) := by
      have hrhs : (((pre ++ [(e, tag)]).filter
          (fun p => p.2 = true ∧ e.t - winNs ≤ p.1.t)).map Prod.fst) =
          ((pre.filter (fun p => p.2 = true ∧ e.t - winNs ≤ p.1.t)).map Prod.fst)
            ++ (([(e, tag)].filter
              (fun p => p.2 = true ∧ e.t - winNs ≤ p.1.t)).map Prod.fst) := by
        rw [List.filter_append, List.map_append]
      rw [hrhs]
      cases tag with
      | true =>
        rw [if_bool_true, List.filter_append,
          buffer_step pre t0 e.t winNs het true,
          filter_singleton_pair e true (e.t - winNs)]
      | false =>
        rw [if_bool_false, buffer_step pre t0 e.t winNs het true,
          show ((false : Bool)) = !true from rfl,
          filter_singleton_pair_other e true (e.t - winNs), List.append_nil]
    have hpre1 : ∀ p ∈ pre ++ [(e, tag)], p.1.t ≤ e.t := by
      intro p hp
      rcases List.mem_append.mp hp with hp | hp
      · exact le_trans (hpre p hp) het
      · rw [List.mem_singleton.mp hp]
    have hrest1 : ∀ p ∈ rest, e.t ≤ p.1.t :=
      fun p hp => (List.pairwise_cons.mp hpw).1 p hp
    have hrec := ih (pre ++ [(e, tag)]) e.t hpre1 hrest1
      (List.pairwise_cons.mp hpw).2
    simp only [fuseLoop, fuseSpecGo]
    rw [hA, hB, hrec]
    simp only [List.length_map]

/-- Claim C6: for every pair of non-decreasing input streams the fuse
processes arrivals in merged time order with stream `a` before stream `b`
on equal timestamps (the merged order is non-decreasing), and the run
equals the declarative description: at each arrival at time `t` the buffers
hold exactly the window-`[t - window, t]` arrivals of each stream seen so
far, and one event `(t, 0, 1.0)` is emitted iff both buffers are non-empty
and their combined size is at least `min_count`. -/
theorem claim6_fuse {β : Type} [One β] (winNs minCount : ℤ)
    (a b : List (Ev β))
    (ha : a.Chain' (fun x y => x.t ≤ y.t)) (hb : b.Chain' (fun x y => x.t ≤ y.t)) :
    fuse winNs minCount a b = fuseSpec winNs minCount a b ∧
    ((fuseMerge a b).map (fun p => p.1.t)).Chain' (· ≤ ·) := by
  haveI : IsTrans (Ev β) (fun x y => x.t ≤ y.t) :=
    ⟨fun _ _ _ h1 h2 => le_trans h1 h2⟩
  have hpa : a.Pairwise (fun x y => x.t ≤ y.t) := List.chain'_iff_pairwise.mp ha
  have hpb : b.Pairwise (fun x y => x.t ≤ y.t) := List.chain'_iff_pairwise.mp hb
  have hpm := fuseMerge_pairwise a b hpa hpb
  constructor
  · show fuseLoop winNs minCount [] [] (fuseMerge a b) =
      fuseSpecGo winNs minCount [] (fuseMerge a b)
    cases hm : fuseMerge a b with
    | nil => rfl
    | cons hd rest =>
      rw [hm] at hpm
      have hall : ∀ p ∈ hd :: rest, hd.1.t ≤ p.1.t := by
        intro p hp
        rcases List.mem_cons.mp hp with rfl | hp
        · exact le_refl _
        · exact (List.pairwise_cons.mp hpm).1 p hp
      have hs := fuseLoop_spec winNs minCount (hd :: rest) [] hd.1.t
        (by simp) hall hpm
      simpa using hs
  · rw [List.chain'_map]
    exact hpm.chain'

/-- Witness for C6 at the spec's coincidence scenario: `a = b` with events
at t = 0, 100, 200 µs, `window = 50 µs`, `min_count = 2`; the fuse emits
one event at each of t = 0, 100, 200 µs. -/
theorem claim6_fuse_witness :
    ([⟨0, 0, 7⟩, ⟨100000, 0, 7⟩, ⟨200000, 0, 7⟩] : List (Ev ℤ)).Chain'
      (fun x y => x.t ≤ y.t) ∧
    (fuse 50000 2 ([⟨0, 0, 7⟩, ⟨100000, 0, 7⟩, ⟨200000, 0, 7⟩] : List (Ev ℤ))
        [⟨0, 0, 7⟩, ⟨100000, 0, 7⟩, ⟨200000, 0, 7⟩] =
      fuseSpec 50000 2 [⟨0, 0, 7⟩, ⟨100000, 0, 7⟩, ⟨200000, 0, 7⟩]
        [⟨0, 0, 7⟩, ⟨100000, 0, 7⟩, ⟨200000, 0, 7⟩] ∧
     ((fuseMerge ([⟨0, 0, 7⟩, ⟨100000, 0, 7⟩, ⟨200000, 0, 7⟩] : List (Ev ℤ))
        [⟨0, 0, 7⟩, ⟨100000, 0, 7⟩, ⟨200000, 0, 7⟩]).map
          (fun p => p.1.t)).Chain' (· ≤ ·)) ∧
    fuse 50000 2 ([⟨0, 0, 7⟩, ⟨100000, 0, 7⟩, ⟨200000, 0, 7⟩] : List (Ev ℤ))
        [⟨0, 0, 7⟩, ⟨100000, 0, 7⟩, ⟨200000, 0, 7⟩] =
      [⟨0, 0, 1⟩, ⟨100000, 0, 1⟩, ⟨200000, 0, 1⟩] :=
  ⟨by simp [List.chain'_cons],
   claim6_fuse 50000 2 _ _ (by simp [List.chain'_cons]) (by simp [List.chain'_cons]),
   by simp [fuse, fuseMerge, fuseLoop]⟩

/-! ## Remaining operators of `eir/ops.py` -/

/-- `step_exp_syn`: stateless scaling `(t, ch, weight * val)`. -/
def stepExpSyn (tauSNs : ℤ) (w : ℝ) (l : List (Ev ℝ)) : List (Ev ℝ) :=
  l.map (fun e => ⟨e.t, e.ch, w * e.v⟩)

/-- `step_delay`: shift every timestamp by `+delay_ns`. -/
def stepDelay {β : Type} (delayNs : ℤ) (l : List (Ev β)) : List (Ev β) :=
  l.map (fun e => ⟨e.t + delayNs, e.ch, e.v⟩)

/-- An input event of `step_xy_to_ch`, with the `x`/`y` metadata fields
(the Python code reads `meta.get("x", -1)` and `meta.get("y", -1)`). -/
structure EvXY where
  t : ℤ
  ch : ℤ
  v : ℝ
  x : ℤ
  y : ℤ

/-- `step_xy_to_ch`: map in-bounds `(x, y)` metadata to channel
`y*width + x`; out-of-bounds events are dropped. -/
def stepXYToCh (width height : ℤ) (l : List EvXY) : List (Ev ℝ) :=
  l.filterMap (fun e =>
    if 0 ≤ e.x ∧ e.x ≤ width - 1 ∧ 0 ≤ e.y ∧ e.y ≤ height - 1 then
      some ⟨e.t, e.y * width + e.x, e.v⟩
    else none)

/-- The Hann window `_hann_window`. -/
noncomputable def hannWindow (N : ℕ) : List ℝ :=
  if N ≤ 1 then List.replicate (max N 1) 1
  else (List.range N).map (fun n =>
    0.5 - 0.5 * Real.cos (2 * Real.pi * n / (N - 1)))

/-- The frame timestamp `int(round((start_idx + N) * 1e9 / sr))` of
`emit_frame`. -/
def stftTF (nfft : ℕ) (sr : ℤ) (start : ℤ) : ℤ :=
  roundHalfEven (((start + nfft) * 10 ^ 9 : ℚ) / sr)

/-- One STFT frame starting at sample index `start`: an event per bin
`k ≤ n_fft/2` at the frame time `round((start + n_fft) * 1e9 / sr)` whose
value is the DFT magnitude of the windowed frame. -/
noncomputable def stftFrame (w : List ℝ) (samples : ℤ → ℝ) (nfft : ℕ)
    (sr : ℤ) (start : ℤ) : List (Ev ℝ) :=
  let tF := stftTF nfft sr start
  (List.range (nfft / 2 + 1)).map (fun (k : ℕ) =>
    let re : ℝ := ((List.range nfft).map (fun (n : ℕ) =>
      samples (start + (n : ℤ)) * w.getD n 0 *
        Real.cos (2 * Real.pi * (k : ℝ) / (nfft : ℝ) * (n : ℝ)))).sum
    let im : ℝ := -((List.range nfft).map (fun (n : ℕ) =>
      samples (start + (n : ℤ)) * w.getD n 0 *
        Real.sin (2 * Real.pi * (k : ℝ) / (nfft : ℝ) * (n : ℝ)))).sum
    ⟨tF, (k : ℤ), Real.sqrt (re * re + im * im)⟩)

/-- The frame-emission loop of `step_stft`
(`while last_idx >= next_start + n_fft - 1`), returning the emitted frames
and the final `next_start`. -/
noncomputable def stftFrames (w : List ℝ) (samples : ℤ → ℝ) (nfft : ℕ)
    (sr : ℤ) (hop : ℤ) (hhop : 1 ≤ hop) (lastIdx : ℤ) (nextStart : ℤ) :
    List (Ev ℝ) × ℤ :=
  if h : nextStart + nfft - 1 ≤ lastIdx then
    let p := stftFrames w samples nfft sr hop hhop lastIdx (nextStart + hop)
    (stftFrame w samples nfft sr nextStart ++ p.1, p.2)
  else ([], nextStart)
termination_by (lastIdx - nfft + 2 - nextStart).toNat
decreasing_by
  omega

/-- The event-consuming loop of `step_stft`: store the sample at the
rounded index, extend `last_idx`, and emit all complete frames. -/
noncomputable def stftGo (w : List ℝ) (nfft : ℕ) (sr : ℤ) (hop : ℤ)
    (hhop : 1 ≤ hop) :
    (ℤ → ℝ) → ℤ → ℤ → List (Ev ℝ) → List (Ev ℝ)
  | _, _, _, [] => []
  | samples, lastIdx, nextStart, e :: rest =>
    let i := roundHalfEven ((e.t * sr : ℚ) / 10 ^ 9)
    let li := max lastIdx i
    let samples1 := fun m => if m = i then e.v else samples m
    let p := stftFrames w samples1 nfft sr hop hhop li nextStart
    p.1 ++ stftGo w nfft sr hop hhop samples1 li p.2 rest

/-- `step_stft` over a whole input stream. -/
noncomputable def stepStft (nfft : ℕ) (hopNs sr : ℤ) (window : String)
    (l : List (Ev ℝ)) : List (Ev ℝ) :=
  let hop := max 1 (roundHalfEven ((hopNs * sr : ℚ) / 10 ^ 9))
  let w := if window = "hann" then hannWindow nfft else List.replicate nfft 1
  stftGo w nfft sr hop (le_max_left 1 _) (fun _ => 0) (-1) 0 l

/-- The mel energy of one filter: `sum_k spec[k] * filt[k]` over the
`n_bins` spectrum slots. -/
noncomputable def melE (nBins : ℕ) (spec filt : List ℝ) : ℝ :=
  ((List.range nBins).map (fun k => spec.getD k 0 * filt.getD k 0)).sum

/-- `flush_spec` of `step_mel`: one event per mel filter at the frame
time, optionally log-compressed with the `1e-12` floor. -/
noncomputable def melFlush (filters : List (List ℝ)) (nBins : ℕ) (lg : Bool)
    (ts : ℤ) (spec : List ℝ) : List (Ev ℝ) :=
  filters.enum.map (fun p =>
    ⟨ts, p.1, if lg then Real.log (max (melE nBins spec p.2) (1 / 10 ^ 12))
      else melE nBins spec p.2⟩)

/-- The event loop of `step_mel`: group consecutive events by equal frame
time, update the spectrum slots, flush at each time change and at the end. -/
noncomputable def melGo (filters : List (List ℝ)) (nBins : ℕ) (lg : Bool) :
    Option ℤ → List ℝ → List (Ev ℝ) → List (Ev ℝ)
  | none, _, [] => []
  | some ts, spec, [] => melFlush filters nBins lg ts spec
  | none, spec, e :: rest =>
    melGo filters nBins lg (some e.t)
      (if 0 ≤ e.ch ∧ e.ch < nBins then spec.set e.ch.toNat e.v else spec) rest
  | some ts, spec, e :: rest =>
    if e.t ≠ ts then
      melFlush filters nBins lg ts spec ++
        melGo filters nBins lg (some e.t)
          (if 0 ≤ e.ch ∧ e.ch < nBins then
            (List.replicate nBins (0 : ℝ)).set e.ch.toNat e.v
           else List.replicate nBins (0 : ℝ)) rest
    else
      melGo filters nBins lg (some ts)
        (if 0 ≤ e.ch ∧ e.ch < nBins then spec.set e.ch.toNat e.v else spec) rest

/-- `step_mel` over a whole input stream. -/
noncomputable def stepMel (filters : List (List ℝ)) (nBins : ℕ) (lg : Bool)
    (l : List (Ev ℝ)) : List (Ev ℝ) :=
  melGo filters nBins lg none (List.replicate nBins 0) l

/-! ## Monotonicity of the operator outputs (claim C7) -/

lemma times_pairwise {γ : Type} {l : List (Ev γ)}
    (h : l.Chain' (fun x y => x.t ≤ y.t)) : (l.map Ev.t).Pairwise (· ≤ ·) := by
  haveI : IsTrans (Ev γ) (fun x y : Ev γ => x.t ≤ y.t) :=
    ⟨fun _ _ _ h1 h2 => le_trans h1 h2⟩
  rw [List.pairwise_map]
  exact List.chain'_iff_pairwise.mp h

lemma chain_of_sublist_times {γ : Type} {out : List (Ev γ)} {ts : List ℤ}
    (hs : (out.map Ev.t).Sublist ts) (h : ts.Pairwise (· ≤ ·)) :
    out.Chain' (fun x y => x.t ≤ y.t) := by
  have hp := h.sublist hs
  rw [List.pairwise_map] at hp
  exact hp.chain'

lemma map_preserving_chain {γ δ : Type} (f : Ev γ → Ev δ)
    (hf : ∀ x y : Ev γ, x.t ≤ y.t → (f x).t ≤ (f y).t) {l : List (Ev γ)}
    (h : l.Chain' (fun x y => x.t ≤ y.t)) :
    (l.map f).Chain' (fun x y => x.t ≤ y.t) := by
  rw [List.chain'_map]
  exact h.imp (fun a b hab => hf a b hab)

lemma runLif_times_sublist (s : LIFState) (l : List (Ev ℝ)) :
    ((runLif s l).2.map Ev.t).Sublist (l.map Ev.t) := by
  induction l generalizing s with
  | nil => simp [runLif]
  | cons e rest ih =>
    have hstep : runLif s (e :: rest) =
        ((runLif (stepLifOne s e).1 rest).1,
         (stepLifOne s e).2 ++ (runLif (stepLifOne s e).1 rest).2) := rfl
    rw [hstep]
    have hrec := ih (stepLifOne s e).1
    have hcases : (stepLifOne s e).2 = [] ∨
        (stepLifOne s e).2 = [⟨e.t, 0, 1⟩] := by
      simp only [stepLifOne]
      split_ifs <;> simp
    show (((stepLifOne s e).2 ++ (runLif (stepLifOne s e).1 rest).2).map Ev.t).Sublist
      ((e :: rest).map Ev.t)
    rcases hcases with hc | hc
    · rw [hc, List.nil_append, List.map_cons]
      exact hrec.trans (List.sublist_cons_self _ _)
    · rw [hc, List.singleton_append, List.map_cons, List.map_cons]
      exact hrec.cons₂ _

lemma fuseLoop_times_sublist {β : Type} [One β] (winNs minCount : ℤ) :
    ∀ (arr : List (Ev β × Bool)) (bufA bufB : List (Ev β)),
      ((fuseLoop winNs minCount bufA bufB arr).map Ev.t).Sublist
        (arr.map (fun p => p.1.t)) := by
  intro arr
  induction arr with
  | nil => intro bufA bufB; simp [fuseLoop]
  | cons hd rest ih =>
    obtain ⟨e, tag⟩ := hd
    intro bufA bufB
    have key : ∀ (em : List (Ev β)), (em = [] ∨ em = [⟨e.t, 0, 1⟩]) →
        ∀ b1 b2 : List (Ev β),
          ((em ++ fuseLoop winNs minCount b1 b2 rest).map Ev.t).Sublist
            (e.t :: rest.map (fun p => p.1.t)) := by
      rintro em (rfl | rfl) b1 b2
      · rw [List.nil_append]
        exact (ih _ _).trans (List.sublist_cons_self _ _)
      · rw [List.singleton_append, List.map_cons]
        exact (ih _ _).cons₂ _
    simp only [fuseLoop, List.map_cons]
    exact key _ (by split_ifs <;> simp) _ _

lemma filterMap_times_sublist {δ γ : Type} (tf : δ → ℤ) (f : δ → Option (Ev γ))
    (hf : ∀ e x, f e = some x → x.t = tf e) (l : List δ) :
    ((l.filterMap f).map Ev.t).Sublist (l.map tf) := by
  induction l with
  | nil => simp
  | cons e rest ih =>
    rw [List.filterMap_cons, List.map_cons]
    cases hfe : f e with
    | none =>
      exact ih.trans (List.sublist_cons_self _ _)
    | some x =>
      rw [List.map_cons, hf e x hfe]
      exact ih.cons₂ _

lemma roundHalfEven_mono {x y : ℚ} (h : x ≤ y) :
    roundHalfEven x ≤ roundHalfEven y := by
  have hf : ⌊x⌋ ≤ ⌊y⌋ := Int.floor_mono h
  rcases lt_or_eq_of_le hf with hlt | heq
  · have h1 : roundHalfEven x ≤ ⌊x⌋ + 1 := by
      unfold roundHalfEven
      split_ifs <;> omega
    have h2 : ⌊y⌋ ≤ roundHalfEven y := by
      unfold roundHalfEven
      split_ifs <;> omega
    omega
  · have hfx : (⌊x⌋ : ℚ) ≤ x := Int.floor_le x
    have hfy : y < ⌊y⌋ + 1 := Int.lt_floor_add_one y
    have hrr : x - ⌊x⌋ ≤ y - ⌊y⌋ := by
      rw [← heq]
      linarith
    unfold roundHalfEven
    rw [← heq]
    split_ifs with a1 a2 b1 b2 b3 b4 b5 b6 b7 b8 b9 b10 <;>
      first
      | omega
      | linarith

lemma stftTF_mono (nfft : ℕ) (sr : ℤ) (hsr : 0 < sr) {s1 s2 : ℤ} (h : s1 ≤ s2) :
    stftTF nfft sr s1 ≤ stftTF nfft sr s2 := by
  unfold stftTF
  apply roundHalfEven_mono
  have hc : (0 : ℚ) < (sr : ℚ) := by exact_mod_cast hsr
  have hn : ((s1 : ℚ) + nfft) * 10 ^ 9 ≤ ((s2 : ℚ) + nfft) * 10 ^ 9 := by
    have : (s1 : ℚ) ≤ s2 := by exact_mod_cast h
    nlinarith
  exact (div_le_div_right hc).mpr hn

lemma stftFrame_times (w : List ℝ) (samples : ℤ → ℝ) (nfft : ℕ) (sr : ℤ)
    (start : ℤ) :
    ∀ ev ∈ stftFrame w samples nfft sr start, ev.t = stftTF nfft sr start := by
  intro ev hev
  simp only [stftFrame] at hev
  obtain ⟨k, _, rfl⟩ := List.mem_map.mp hev
  rfl

lemma const_times_chain {l : List (Ev ℝ)} {c : ℤ}
    (h : ∀ ev ∈ l, ev.t = c) : l.Chain' (fun x y => x.t ≤ y.t) := by
  induction l with
  | nil => exact List.chain'_nil
  | cons e rest ih =>
    rw [List.chain'_cons']
    refine ⟨?_, ih (fun ev hev => h ev (List.mem_cons_of_mem _ hev))⟩
    intro y hy
    have hyl : y ∈ rest := List.mem_of_mem_head? hy
    rw [h e (List.mem_cons_self _ _), h y (List.mem_cons_of_mem _ hyl)]

lemma stftFrames_of_neg (w : List ℝ) (samples : ℤ → ℝ) (nfft : ℕ) (sr : ℤ)
    (hop : ℤ) (hhop : 1 ≤ hop) (lastIdx nextStart : ℤ)
    (h : ¬ (nextStart + nfft - 1 ≤ lastIdx)) :
    stftFrames w samples nfft sr hop hhop lastIdx nextStart = ([], nextStart) := by
  rw [stftFrames, dif_neg h]

lemma stftFrames_of_pos (w : List ℝ) (samples : ℤ → ℝ) (nfft : ℕ) (sr : ℤ)
    (hop : ℤ) (hhop : 1 ≤ hop) (lastIdx nextStart : ℤ)
    (h : nextStart + nfft - 1 ≤ lastIdx) :
    stftFrames w samples nfft sr hop hhop lastIdx nextStart =
      (stftFrame w samples nfft sr nextStart ++
        (stftFrames w samples nfft sr hop hhop lastIdx (nextStart + hop)).1,
       (stftFrames w samples nfft sr hop hhop lastIdx (nextStart + hop)).2) := by
  rw [stftFrames, dif_pos h]

set_option maxHeartbeats 1000000 in
lemma stftFrames_spec (w : List ℝ) (samples : ℤ → ℝ) (nfft : ℕ) (sr : ℤ)
    (hsr : 0 < sr) (hop : ℤ) (hhop : 1 ≤ hop) (lastIdx : ℤ) :
    ∀ (n : ℕ) (nextStart : ℤ), (lastIdx - nfft + 2 - nextStart).toNat ≤ n →
      ((stftFrames w samples nfft sr hop hhop lastIdx nextStart).1.Chain'
        (fun x y => x.t ≤ y.t)) ∧
      (∀ ev ∈ (stftFrames w samples nfft sr hop hhop lastIdx nextStart).1,
        stftTF nfft sr nextStart ≤ ev.t ∧
        ev.t ≤ stftTF nfft sr
          (stftFrames w samples nfft sr hop hhop lastIdx nextStart).2) ∧
      nextStart ≤ (stftFrames w samples nfft sr hop hhop lastIdx nextStart).2 := by
  intro n
  induction n with
  | zero =>
    intro nextStart hn
    rw [stftFrames_of_neg w samples nfft sr hop hhop lastIdx nextStart (by omega)]
    exact ⟨List.chain'_nil, by simp, le_refl _⟩
  | succ n ih =>
    intro nextStart hn
    by_cases h : nextStart + nfft - 1 ≤ lastIdx
    · rw [stftFrames_of_pos w samples nfft sr hop hhop lastIdx nextStart h]
      obtain ⟨ihc, ihb, ihns⟩ := ih (nextStart + hop) (by omega)
      set P := stftFrames w samples nfft sr hop hhop lastIdx (nextStart + hop)
        with hPdef
      have hns2 : nextStart ≤ P.2 := by omega
      have hfr := stftFrame_times w samples nfft sr nextStart
      refine ⟨?_, ?_, hns2⟩
      · apply List.Chain'.append (const_times_chain hfr) ihc
        intro x hx y hy
        have hxm : x ∈ stftFrame w samples nfft sr nextStart :=
          List.mem_of_mem_getLast? hx
        have hym : y ∈ P.1 := List.mem_of_mem_head? hy
        rw [hfr x hxm]
        calc stftTF nfft sr nextStart
            ≤ stftTF nfft sr (nextStart + hop) := stftTF_mono nfft sr hsr (by omega)
          _ ≤ y.t := (ihb y hym).1
      · intro ev hev
        rcases List.mem_append.mp hev with hev | hev
        · rw [hfr ev hev]
          refine ⟨le_refl _, stftTF_mono nfft sr hsr hns2⟩
        · obtain ⟨hlo, hhi⟩ := ihb ev hev
          refine ⟨le_trans (stftTF_mono nfft sr hsr (by omega)) hlo, hhi⟩
    · rw [stftFrames_of_neg w samples nfft sr hop hhop lastIdx nextStart h]
      exact ⟨List.chain'_nil, by simp, le_refl _⟩

lemma stftGo_spec (w : List ℝ) (nfft : ℕ) (sr : ℤ) (hsr : 0 < sr)
    (hop : ℤ) (hhop : 1 ≤ hop) :
    ∀ (l : List (Ev ℝ)) (samples : ℤ → ℝ) (lastIdx nextStart : ℤ),
      (stftGo w nfft sr hop hhop samples lastIdx nextStart l).Chain'
        (fun x y => x.t ≤ y.t) ∧
      ∀ ev ∈ stftGo w nfft sr hop hhop samples lastIdx nextStart l,
        stftTF nfft sr nextStart ≤ ev.t := by
  intro l
  induction l with
  | nil =>
    intro samples lastIdx nextStart
    exact ⟨List.chain'_nil, by simp [stftGo]⟩
  | cons e rest ih =>
    intro samples lastIdx nextStart
    set i := roundHalfEven ((e.t * sr : ℚ) / 10 ^ 9) with hi
    set li := max lastIdx i with hli
    set samples1 : ℤ → ℝ := fun m => if m = i then e.v else samples m with hs1
    set P := stftFrames w samples1 nfft sr hop hhop li nextStart with hP
    have hstep : stftGo w nfft sr hop hhop samples lastIdx nextStart (e :: rest) =
        P.1 ++ stftGo w nfft sr hop hhop samples1 li P.2 rest := rfl
    rw [hstep]
    obtain ⟨hfc, hfb, hfns⟩ := stftFrames_spec w samples1 nfft sr hsr hop hhop li
      ((li - nfft + 2 - nextStart).toNat) nextStart le_rfl
    obtain ⟨hrc, hrb⟩ := ih samples1 li P.2
    constructor
    · apply List.Chain'.append hfc hrc
      intro x hx y hy
      have hxm := List.mem_of_mem_getLast? hx
      have hym := List.mem_of_mem_head? hy
      calc x.t ≤ stftTF nfft sr P.2 := (hfb x hxm).2
        _ ≤ y.t := hrb y hym
    · intro ev hev
      rcases List.mem_append.mp hev with hev | hev
      · exact (hfb ev hev).1
      · exact le_trans (stftTF_mono nfft sr hsr hfns) (hrb ev hev)

lemma stepStft_chain (nfft : ℕ) (hopNs sr : ℤ) (window : String)
    (l : List (Ev ℝ)) (hsr : 0 < sr) :
    (stepStft nfft hopNs sr window l).Chain' (fun x y => x.t ≤ y.t) :=
  (stftGo_spec _ nfft sr hsr _ _ l _ (-1) 0).1

lemma melFlush_times (filters : List (List ℝ)) (nBins : ℕ) (lg : Bool)
    (ts : ℤ) (spec : List ℝ) :
    ∀ ev ∈ melFlush filters nBins lg ts spec, ev.t = ts := by
  intro ev hev
  simp only [melFlush] at hev
  obtain ⟨p, _, rfl⟩ := List.mem_map.mp hev
  rfl

lemma melGo_spec (filters : List (List ℝ)) (nBins : ℕ) (lg : Bool) :
    ∀ (l : List (Ev ℝ)) (spec : List ℝ) (ts : ℤ),
      (∀ f ∈ l, ts ≤ f.t) → l.Pairwise (fun x y => x.t ≤ y.t) →
      (melGo filters nBins lg (some ts) spec l).Chain' (fun x y => x.t ≤ y.t) ∧
      ∀ ev ∈ melGo filters nBins lg (some ts) spec l, ts ≤ ev.t := by
  intro l
  induction l with
  | nil =>
    intro spec ts _ _
    have hfl := melFlush_times filters nBins lg ts spec
    refine ⟨const_times_chain hfl, ?_⟩
    intro ev hev
    rw [hfl ev hev]
  | cons e rest ih =>
    intro spec ts hts hpw
    have hte : ts ≤ e.t := hts e (List.mem_cons_self _ _)
    have hrest : ∀ f ∈ rest, e.t ≤ f.t :=
      fun f hf => (List.pairwise_cons.mp hpw).1 f hf
    have hpw2 := (List.pairwise_cons.mp hpw).2
    by_cases he : e.t ≠ ts
    · have hstep : melGo filters nBins lg (some ts) spec (e :: rest) =
          melFlush filters nBins lg ts spec ++
            melGo filters nBins lg (some e.t)
              (if 0 ≤ e.ch ∧ e.ch < nBins then
                (List.replicate nBins (0 : ℝ)).set e.ch.toNat e.v
               else List.replicate nBins (0 : ℝ)) rest := by
        simp only [melGo]
        rw [if_pos he]
      obtain ⟨ihc, ihb⟩ := ih _ e.t hrest hpw2
      have hfl := melFlush_times filters nBins lg ts spec
      rw [hstep]
      constructor
      · apply List.Chain'.append (const_times_chain hfl) ihc
        intro x hx y hy
        rw [hfl x (List.mem_of_mem_getLast? hx)]
        exact le_trans hte (ihb y (List.mem_of_mem_head? hy))
      · intro ev hev
        rcases List.mem_append.mp hev with hev | hev
        · rw [hfl ev hev]
        · exact le_trans hte (ihb ev hev)
    · have hstep : melGo filters nBins lg (some ts) spec (e :: rest) =
          melGo filters nBins lg (some ts)
            (if 0 ≤ e.ch ∧ e.ch < nBins then spec.set e.ch.toNat e.v else spec)
            rest := by
        simp only [melGo]
        rw [if_neg he]
      rw [hstep]
      have heq : e.t = ts := by omega
      exact ih _ ts (fun f hf => heq ▸ hrest f hf) hpw2

lemma stepMel_chain (filters : List (List ℝ)) (nBins : ℕ) (lg : Bool)
    (l : List (Ev ℝ)) (h : l.Chain' (fun x y => x.t ≤ y.t)) :
    (stepMel filters nBins lg l).Chain' (fun x y => x.t ≤ y.t) := by
  haveI : IsTrans (Ev ℝ) (fun x y : Ev ℝ => x.t ≤ y.t) :=
    ⟨fun _ _ _ h1 h2 => le_trans h1 h2⟩
  have hpw : l.Pairwise (fun x y => x.t ≤ y.t) := List.chain'_iff_pairwise.mp h
  cases l with
  | nil => exact List.chain'_nil
  | cons e rest =>
    have hstep : stepMel filters nBins lg (e :: rest) =
        melGo filters nBins lg (some e.t)
          (if 0 ≤ e.ch ∧ e.ch < nBins then
            (List.replicate nBins (0 : ℝ)).set e.ch.toNat e.v
           else List.replicate nBins (0 : ℝ)) rest := rfl
    rw [hstep]
    exact (melGo_spec filters nBins lg rest _ e.t
      (fun f hf => (List.pairwise_cons.mp hpw).1 f hf)
      (List.pairwise_cons.mp hpw).2).1

/-- Claim C7: every operator of the operator set (exponential synapse,
delay, LIF, coincidence fuse, STFT, mel filterbank, xy_to_ch, shift_xy)
maps input streams with non-decreasing timestamps to output streams with
non-decreasing timestamps (for the STFT, under the parameter-schema
requirement `sample_rate_hz > 0`). -/
theorem claim7_operator_monotonicity :
    (∀ (tauSNs : ℤ) (w : ℝ) (l : List (Ev ℝ)),
      l.Chain' (fun x y => x.t ≤ y.t) →
      (stepExpSyn tauSNs w l).Chain' (fun x y => x.t ≤ y.t)) ∧
    (∀ (β : Type) (delayNs : ℤ) (l : List (Ev β)),
      l.Chain' (fun x y => x.t ≤ y.t) →
      (stepDelay delayNs l).Chain' (fun x y => x.t ≤ y.t)) ∧
    (∀ (s : LIFState) (l : List (Ev ℝ)),
      l.Chain' (fun x y => x.t ≤ y.t) →
      (runLif s l).2.Chain' (fun x y => x.t ≤ y.t)) ∧
    (∀ (β : Type) (inst : One β) (winNs minCount : ℤ) (a b : List (Ev β)),
      a.Chain' (fun x y => x.t ≤ y.t) → b.Chain' (fun x y => x.t ≤ y.t) →
      (@fuse β inst winNs minCount a b).Chain' (fun x y => x.t ≤ y.t)) ∧
    (∀ (nfft : ℕ) (hopNs sr : ℤ) (window : String) (l : List (Ev ℝ)),
      0 < sr → l.Chain' (fun x y => x.t ≤ y.t) →
      (stepStft nfft hopNs sr window l).Chain' (fun x y => x.t ≤ y.t)) ∧
    (∀ (filters : List (List ℝ)) (nBins : ℕ) (lg : Bool) (l : List (Ev ℝ)),
      l.Chain' (fun x y => x.t ≤ y.t) →
      (stepMel filters nBins lg l).Chain' (fun x y => x.t ≤ y.t)) ∧
    (∀ (width height : ℤ) (l : List EvXY),
      l.Chain' (fun x y => x.t ≤ y.t) →
      (stepXYToCh width height l).Chain' (fun x y => x.t ≤ y.t)) ∧
    (∀ (β : Type) (dx dy width height : ℤ) (l : List (Ev β)),
      l.Chain' (fun x y => x.t ≤ y.t) →
      (stepShiftXY dx dy width height l).Chain'
        (fun x y => x.t ≤ y.t)) := by
  refine ⟨?_, ?_, ?_, ?_, ?_, ?_, ?_, ?_⟩
  · intro tauSNs w l h
    exact map_preserving_chain (fun e => ⟨e.t, e.ch, w * e.v⟩)
      (fun x y hxy => hxy) h
  · intro β delayNs l h
    exact map_preserving_chain (fun e => ⟨e.t + delayNs, e.ch, e.v⟩)
      (fun x y hxy => by
        show x.t + delayNs ≤ y.t + delayNs
        omega) h
  · intro s l h
    exact chain_of_sublist_times (runLif_times_sublist s l) (times_pairwise h)
  · intro β inst winNs minCount a b ha hb
    haveI : IsTrans (Ev β) (fun x y : Ev β => x.t ≤ y.t) :=
      ⟨fun _ _ _ h1 h2 => le_trans h1 h2⟩
    exact chain_of_sublist_times
      (fuseLoop_times_sublist winNs minCount (fuseMerge a b) [] [])
      (List.pairwise_map.mpr
        (fuseMerge_pairwise a b (List.chain'_iff_pairwise.mp ha)
          (List.chain'_iff_pairwise.mp hb)))
  · intro nfft hopNs sr window l hsr _
    exact stepStft_chain nfft hopNs sr window l hsr
  · intro filters nBins lg l h
    exact stepMel_chain filters nBins lg l h
  · intro width height l h
    haveI : IsTrans EvXY (fun x y : EvXY => x.t ≤ y.t) :=
      ⟨fun _ _ _ h1 h2 => le_trans h1 h2⟩
    have hf : ∀ (e : EvXY) (x : Ev ℝ),
        (if 0 ≤ e.x ∧ e.x ≤ width - 1 ∧ 0 ≤ e.y ∧ e.y ≤ height - 1 then
          some (⟨e.t, e.y * width + e.x, e.v⟩ : Ev ℝ) else none) = some x →
        x.t = e.t := by
      intro e x hex
      split_ifs at hex with hcond
      obtain rfl := Option.some.inj hex
      rfl
    exact chain_of_sublist_times (filterMap_times_sublist EvXY.t _ hf l)
      (List.pairwise_map.mpr (List.chain'_iff_pairwise.mp h))
  · intro β dx dy width height l h
    haveI : IsTrans (Ev β) (fun x y : Ev β => x.t ≤ y.t) :=
      ⟨fun _ _ _ h1 h2 => le_trans h1 h2⟩
    have hf : ∀ (e : Ev β) (x : Ev β),
        (if e.ch < 0 then none
          else some (⟨e.t, shiftChannel dx dy width height e.ch, e.v⟩ :
            Ev β)) = some x →
        x.t = e.t := by
      intro e x hex
      split_ifs at hex with hcond
      obtain rfl := Option.some.inj hex
      rfl
    exact chain_of_sublist_times (filterMap_times_sublist Ev.t _ hf l)
      (times_pairwise h)

/-- Witness for C7: each operator applied to a concrete non-decreasing
input. -/
theorem claim7_operator_monotonicity_witness :
    (([⟨1, 0, 1⟩, ⟨2, 0, 1⟩] : List (Ev ℝ)).Chain' (fun x y => x.t ≤ y.t)) ∧
    ((stepExpSyn 5 2 [⟨1, 0, 1⟩, ⟨2, 0, 1⟩]).Chain' (fun x y => x.t ≤ y.t)) ∧
    ((stepDelay 7 ([⟨1, 0, 1⟩, ⟨2, 0, 1⟩] : List (Ev ℤ))).Chain'
      (fun x y => x.t ≤ y.t)) ∧
    ((runLif ⟨0, -(10^18), 0, 0, 0, 1, 1, 0⟩ [⟨1, 0, 1⟩, ⟨2, 0, 1⟩]).2.Chain'
      (fun x y => x.t ≤ y.t)) ∧
    ((fuse 50 2 ([⟨1, 0, 1⟩] : List (Ev ℤ)) [⟨1, 0, 1⟩]).Chain'
      (fun x y => x.t ≤ y.t)) ∧
    ((0 : ℤ) < 16000 ∧
      (stepStft 4 10 16000 "hann" [⟨1, 0, 1⟩, ⟨2, 0, 1⟩]).Chain'
        (fun x y => x.t ≤ y.t)) ∧
    ((stepMel [[1]] 1 true [⟨1, 0, 1⟩, ⟨2, 0, 1⟩]).Chain'
      (fun x y => x.t ≤ y.t)) ∧
    ((stepXYToCh 2 2 [⟨1, 0, 1, 0, 0⟩]).Chain' (fun x y => x.t ≤ y.t)) ∧
    ((stepShiftXY 1 0 2 2 ([⟨1, 0, 1⟩] : List (Ev ℤ))).Chain'
      (fun x y => x.t ≤ y.t)) := by
  refine ⟨?_, ?_, ?_, ?_, ?_, ⟨?_, ?_⟩, ?_, ?_, ?_⟩
  · simp [List.chain'_cons]
  · exact claim7_operator_monotonicity.1 5 2 _ (by simp [List.chain'_cons])
  · exact claim7_operator_monotonicity.2.1 ℤ 7 _ (by simp [List.chain'_cons])
  · exact claim7_operator_monotonicity.2.2.1 _ _ (by simp [List.chain'_cons])
  · exact claim7_operator_monotonicity.2.2.2.1 ℤ inferInstance 50 2 _ _
      (by simp [List.chain'_cons]) (by simp [List.chain'_cons])
  · norm_num
  · exact claim7_operator_monotonicity.2.2.2.2.1 4 10 16000 "hann" _
      (by norm_num) (by simp [List.chain'_cons])
  · exact claim7_operator_monotonicity.2.2.2.2.2.1 [[1]] 1 true _
      (by simp [List.chain'_cons])
  · exact claim7_operator_monotonicity.2.2.2.2.2.2.1 2 2 _
      (by simp [List.chain'_cons])
  · exact claim7_operator_monotonicity.2.2.2.2.2.2.2 ℤ 1 0 2 2 _
      (by simp [List.chain'_cons])

/-! ### C4: graph build / topological sort (`EIRGraph.topo`) -/

/-- A node of the EIR graph (`Node(op, id)`), keeping the operator kind and
the `delay_ns` parameter of its `OpDef` — the fields relevant to the
delay-cycle question.  `topo` reads none of them. -/
structure GNode where
  id : String
  kind : String
  delayNs : ℤ
deriving Repr, DecidableEq

/-- The EIR graph: nodes (in insertion order of the `nodes` dict, ids
unique) and edges `src → dst` (`topo` only uses the node components
`e.src[0]` / `e.dst[0]`). -/
structure EIRGraph where
  nodes : List GNode
  edges : List (String × String)
deriving Repr, DecidableEq

/-- Well-formedness matching the Python runtime assumptions: node ids are
unique (they are dict keys) and every edge endpoint is a node (otherwise
`indeg[e.dst[0]] += 1` / `adj[e.src[0]].append` raise `KeyError`). -/
def GraphWF (g : EIRGraph) : Prop :=
  (g.nodes.map GNode.id).Nodup ∧
  ∀ e ∈ g.edges, e.1 ∈ g.nodes.map GNode.id ∧ e.2 ∈ g.nodes.map GNode.id

instance (g : EIRGraph) : Decidable (GraphWF g) := by
  unfold GraphWF
  infer_instance

/-- `indeg[n]` after the edge pass: the number of edges into `n`. -/
def indegCount (edges : List (String × String)) (n : String) : ℤ :=
  (edges.countP (fun e => decide (e.2 = n)) : ℤ)

/-- `adj[n]`: the targets of the edges out of `n`, in edge order. -/
def adjList (edges : List (String × String)) (n : String) : List String :=
  (edges.filter (fun e => decide (e.1 = n))).map (fun e => e.2)

/-- The inner `for neighbor in adj[n]` loop: decrement each target's
counter in order, appending a target to the queue exactly when its counter
hits zero. -/
def processAdj (ind : String → ℤ) (q : List String) :
    List String → (String → ℤ) × List String
  | [] => (ind, q)
  | m :: ms =>
      processAdj (fun x => if x = m then ind m - 1 else ind x)
        (if ind m - 1 = 0 then q ++ [m] else q) ms

/-- The `while q` loop of `topo`: pop the last queue entry, append it to
`out`, and process its adjacency list.  `fuel` bounds the number of
iterations (each node enters the queue at most once, so `len(nodes) + 1`
always suffices). -/
def kahnLoop (adj : String → List String) :
    ℕ → (String → ℤ) → List String → List String → List String
  | 0, _, _, out => out
  | fuel + 1, ind, q, out =>
      if hq : q = [] then out
      else
        kahnLoop adj fuel
          (processAdj ind q.dropLast (adj (q.getLast hq))).1
          (processAdj ind q.dropLast (adj (q.getLast hq))).2
          (out ++ [q.getLast hq])

/-- `EIRGraph.topo`: Kahn's algorithm with a stack queue; the
`ValueError("cycle detected")` raised when the output misses a node is
modelled as `none`. -/
def topo (g : EIRGraph) : Option (List String) :=
  let ids := g.nodes.map GNode.id
  let out := kahnLoop (adjList g.edges) (ids.length + 1) (indegCount g.edges)
    (ids.filter (fun n => decide (indegCount g.edges n = 0))) []
  if out.length = ids.length then some out else none

/-- The edge relation induced by the graph. -/
def edgeRel (g : EIRGraph) (a b : String) : Prop := (a, b) ∈ g.edges

/-- No directed cycle in the edge-induced graph. -/
def Acyclic (g : EIRGraph) : Prop :=
  ¬ ∃ n, Relation.TransGen (edgeRel g) n n

/-- Number of edges into `x` whose source lies in `S`. -/
def cntIn (E : List (String × String)) (S : List String) (x : String) : ℤ :=
  (E.countP (fun e => decide (e.1 ∈ S) && decide (e.2 = x)) : ℤ)

lemma countP_le_antisymm_mem {γ : Type} {p q : γ → Bool} :
    ∀ (l : List γ), (∀ a ∈ l, p a = true → q a = true) →
      l.countP q ≤ l.countP p → ∀ a ∈ l, q a = true → p a = true := by
  intro l
  induction l with
  | nil => simp
  | cons b l ih =>
    intro himp hle a ha hqa
    have himp2 : ∀ x ∈ l, p x = true → q x = true :=
      fun x hx => himp x (List.mem_cons_of_mem _ hx)
    have hmono : l.countP p ≤ l.countP q := List.countP_mono_left himp2
    rw [List.countP_cons, List.countP_cons] at hle
    have hib : (if p b = true then 1 else 0) ≤ (if q b = true then 1 else 0) := by
      by_cases hpb : p b = true
      · rw [if_pos hpb, if_pos (himp b (List.mem_cons_self b l) hpb)]
      · rw [if_neg hpb]
        omega
    rcases List.mem_cons.mp ha with rfl | ha2
    · by_contra hpa
      rw [if_pos hqa, if_neg hpa] at hle
      omega
    · exact ih himp2 (by omega) a ha2 hqa

lemma exists_of_countP_lt {γ : Type} {p q : γ → Bool} (l : List γ)
    (h : l.countP p < l.countP q) : ∃ a ∈ l, q a = true ∧ p a = false := by
  by_contra hc
  push_neg at hc
  have hmono : l.countP q ≤ l.countP p := by
    apply List.countP_mono_left
    intro a ha hqa
    rcases hpa : p a with _ | _
    · exact absurd hpa (hc a ha hqa)
    · rfl
  omega

lemma countP_or_of_disjoint {γ : Type} {p q : γ → Bool} :
    ∀ (l : List γ), (∀ a ∈ l, ¬(p a = true ∧ q a = true)) →
      l.countP (fun a => p a || q a) = l.countP p + l.countP q := by
  intro l
  induction l with
  | nil => simp
  | cons b l ih =>
    intro hdis
    have hd2 : ∀ a ∈ l, ¬(p a = true ∧ q a = true) :=
      fun a ha => hdis a (List.mem_cons_of_mem _ ha)
    rw [List.countP_cons, List.countP_cons, List.countP_cons, ih hd2]
    have hb := hdis b (List.mem_cons_self b l)
    rcases hpb : p b with _ | _ <;> rcases hqb : q b with _ | _ <;>
      simp [hpb, hqb] at hb ⊢ <;> omega

lemma cntIn_nonneg (E : List (String × String)) (S : List String)
    (x : String) : 0 ≤ cntIn E S x := by
  unfold cntIn
  positivity

lemma cntIn_le_indeg (E : List (String × String)) (S : List String)
    (x : String) : cntIn E S x ≤ indegCount E x := by
  unfold cntIn indegCount
  have h : E.countP (fun e => decide (e.1 ∈ S) && decide (e.2 = x)) ≤
      E.countP (fun e => decide (e.2 = x)) := by
    apply List.countP_mono_left
    intro e _ he
    exact (Bool.and_eq_true_iff.mp he).2
  omega

lemma cntIn_nil (E : List (String × String)) (x : String) :
    cntIn E [] x = 0 := by
  unfold cntIn
  have h : E.countP (fun e => decide (e.1 ∈ ([] : List String)) &&
      decide (e.2 = x)) = 0 := by
    rw [List.countP_eq_zero]
    intro e _
    simp
  rw [h]
  rfl

lemma adjList_count (E : List (String × String)) (n x : String) :
    (adjList E n).count x =
      E.countP (fun e => decide (e.1 = n) && decide (e.2 = x)) := by
  unfold adjList
  rw [List.count_eq_countP, List.countP_map, List.countP_filter]
  apply List.countP_congr
  intro e _
  simp only [Function.comp]
  rcases h1 : decide (e.1 = n) with _ | _ <;>
    rcases h2 : decide (e.2 = x) with _ | _ <;>
    simp_all

lemma cntIn_append_singleton (E : List (String × String)) (S : List String)
    (m : String) (hm : m ∉ S) (x : String) :
    cntIn E (S ++ [m]) x = cntIn E S x + ((adjList E m).count x : ℤ) := by
  unfold cntIn
  rw [adjList_count]
  have hcong : E.countP (fun e => decide (e.1 ∈ S ++ [m]) && decide (e.2 = x)) =
      E.countP (fun e => (decide (e.1 ∈ S) && decide (e.2 = x)) ||
        (decide (e.1 = m) && decide (e.2 = x))) := by
    apply List.countP_congr
    intro e _
    rcases h1 : decide (e.1 ∈ S) with _ | _ <;>
      rcases h2 : decide (e.2 = x) with _ | _ <;>
      rcases h3 : decide (e.1 = m) with _ | _ <;>
      simp_all
  rw [hcong, countP_or_of_disjoint]
  · push_cast
    ring
  · intro e _ ⟨h1, h2⟩
    have hS := (Bool.and_eq_true_iff.mp h1).1
    have hm2 := (Bool.and_eq_true_iff.mp h2).1
    exact hm ((of_decide_eq_true hm2) ▸ (of_decide_eq_true hS))

lemma processAdj_spec :
    ∀ (ms : List String) (ind : String → ℤ) (q : List String),
      ∃ qa : List String,
        (processAdj ind q ms).2 = q ++ qa ∧
        qa.Nodup ∧
        (∀ x, x ∈ qa ↔ (1 ≤ ind x ∧ ind x ≤ (ms.count x : ℤ))) ∧
        (∀ x, (processAdj ind q ms).1 x = ind x - (ms.count x : ℤ)) := by
  intro ms
  induction ms with
  | nil =>
    intro ind q
    refine ⟨[], by simp [processAdj], List.nodup_nil, ?_, ?_⟩
    · intro x
      simp only [List.not_mem_nil, List.count_nil, false_iff]
      push_cast
      omega
    · intro x
      simp [processAdj]
  | cons m ms ih =>
    intro ind q
    obtain ⟨qa, h2, hnd, hmem, hind⟩ :=
      ih (fun x => if x = m then ind m - 1 else ind x)
        (if ind m - 1 = 0 then q ++ [m] else q)
    have hstep : processAdj ind q (m :: ms) =
        processAdj (fun x => if x = m then ind m - 1 else ind x)
          (if ind m - 1 = 0 then q ++ [m] else q) ms := rfl
    refine ⟨(if ind m - 1 = 0 then [m] else []) ++ qa, ?_, ?_, ?_, ?_⟩
    · rw [hstep, h2]
      split_ifs <;> simp
    · rw [List.nodup_append]
      refine ⟨?_, hnd, ?_⟩
      · split_ifs <;> simp
      · intro a ha
        split_ifs at ha with h0
        · rcases List.mem_singleton.mp ha with rfl
          intro hmm
          have := (hmem a).mp hmm
          rw [if_pos rfl] at this
          omega
        · exact absurd ha (List.not_mem_nil a)
    · intro x
      rw [List.mem_append]
      by_cases hx : x = m
      · subst hx
        have h1 := hmem x
        rw [if_pos rfl] at h1
        rw [h1]
        constructor
        · intro h
          rcases h with h | h
          · split_ifs at h with h0
            · rw [List.count_cons_self]
              push_cast
              omega
            · exact absurd h (List.not_mem_nil x)
          · rw [List.count_cons_self]
            push_cast
            push_cast at h
            omega
        · intro h
          rw [List.count_cons_self] at h
          push_cast at h
          by_cases h0 : ind x - 1 = 0
          · left
            rw [if_pos h0]
            exact List.mem_singleton_self x
          · right
            push_cast
            omega
      · have h1 := hmem x
        rw [if_neg hx] at h1
        rw [List.count_cons_of_ne hx]
        constructor
        · intro h
          rcases h with h | h
          · split_ifs at h with h0
            · exact absurd (List.mem_singleton.mp h) hx
            · exact absurd h (List.not_mem_nil x)
          · exact h1.mp h
        · intro h
          exact Or.inr (h1.mpr h)
    · intro x
      rw [hstep]
      have h1 := hind x
      by_cases hx : x = m
      · subst hx
        rw [if_pos rfl] at h1
        rw [h1, List.count_cons_self]
        push_cast
        ring
      · rw [if_neg hx] at h1
        rw [h1, List.count_cons_of_ne hx]

/-- The topological-order property of the processed prefix: every edge into
`out[i]` has its source among the first `i` entries of `out`. -/
def ListTopo (E : List (String × String)) (out : List String) : Prop :=
  ∀ (i : ℕ) (hi : i < out.length) (e : String × String),
    e ∈ E → e.2 = out.get ⟨i, hi⟩ → e.1 ∈ out.take i

/-- Loop invariant of `kahnLoop`: the counters record the edges not yet
consumed, the queue and output are disjoint node lists, queued or emitted
nodes have exhausted counters, the rest have positive counters, and the
output is topologically sorted so far. -/
def LoopInv (E : List (String × String)) (ids : List String)
    (ind : String → ℤ) (q out : List String) : Prop :=
  (∀ x, ind x = indegCount E x - cntIn E out x) ∧
  (q ++ out).Nodup ∧
  (∀ m ∈ q ++ out, m ∈ ids) ∧
  (∀ m ∈ q ++ out, ind m ≤ 0) ∧
  (∀ m ∈ ids, m ∉ q ++ out → 1 ≤ ind m) ∧
  ListTopo E out

lemma inEdges_subset_of_cnt (E : List (String × String)) (out : List String)
    (n : String) (h : indegCount E n ≤ cntIn E out n) :
    ∀ e ∈ E, e.2 = n → e.1 ∈ out := by
  intro e he h2
  have hle : E.countP (fun e => decide (e.2 = n)) ≤
      E.countP (fun e => decide (e.1 ∈ out) && decide (e.2 = n)) := by
    unfold indegCount cntIn at h
    omega
  have himp : ∀ a ∈ E, (fun e => decide (e.1 ∈ out) && decide (e.2 = n)) a =
      true → (fun e => decide (e.2 = n)) a = true :=
    fun a _ ha => (Bool.and_eq_true_iff.mp ha).2
  have := countP_le_antisymm_mem E himp hle e he (decide_eq_true h2)
  exact of_decide_eq_true (Bool.and_eq_true_iff.mp this).1

lemma listTopo_append (E : List (String × String)) (out : List String)
    (n : String) (hn : ∀ e ∈ E, e.2 = n → e.1 ∈ out) (h : ListTopo E out) :
    ListTopo E (out ++ [n]) := by
  intro i hi e he h2
  have hlen : (out ++ [n]).length = out.length + 1 := by simp
  by_cases hlt : i < out.length
  · have hget : (out ++ [n]).get ⟨i, hi⟩ = out.get ⟨i, hlt⟩ := by
      rw [List.get_append i hlt]
    rw [List.take_append_of_le_length (le_of_lt hlt)]
    exact h i hlt e he (h2.trans hget)
  · have hi2 : i = out.length := by omega
    subst hi2
    have hget : (out ++ [n]).get ⟨out.length, hi⟩ = n := by
      simp
    rw [List.take_append_of_le_length (le_refl _), List.take_length]
    exact hn e he (h2.trans hget)

set_option maxHeartbeats 1000000 in
lemma kahnLoop_spec (E : List (String × String)) (ids : List String)
    (hE : ∀ e ∈ E, e.1 ∈ ids ∧ e.2 ∈ ids) :
    ∀ (fuel : ℕ) (ind : String → ℤ) (q out : List String),
      LoopInv E ids ind q out →
      q.length + (ids.toFinset \ (q ++ out).toFinset).card < fuel →
      ∃ ext, kahnLoop (adjList E) fuel ind q out = out ++ ext ∧
        LoopInv E ids (fun x => indegCount E x - cntIn E (out ++ ext) x) []
          (out ++ ext) := by
  intro fuel
  induction fuel with
  | zero =>
    intro ind q out _ hphi
    omega
  | succ fuel ih =>
    intro ind q out hinv hphi
    obtain ⟨h1, h2, h3, h4, h5, h6⟩ := hinv
    by_cases hq : q = []
    · subst hq
      refine ⟨[], by simp [kahnLoop], ?_⟩
      rw [List.append_nil]
      refine ⟨fun x => rfl, ?_, ?_, ?_, ?_, h6⟩
      · simpa using h2
      · intro m hm
        exact h3 m hm
      · intro m hm
        show indegCount E m - cntIn E out m ≤ 0
        have := h1 m
        have := h4 m hm
        omega
      · intro m hm hm2
        show 1 ≤ indegCount E m - cntIn E out m
        have := h1 m
        have := h5 m hm hm2
        omega
    · -- pop n from the end of q
      have hsplit : q.dropLast ++ [q.getLast hq] = q :=
        List.dropLast_append_getLast hq
      generalize hn : q.getLast hq = n at hsplit
      generalize hq2 : q.dropLast = q' at hsplit
      have hnq : n ∈ q := by
        rw [← hsplit]
        exact List.mem_append_right q' (List.mem_singleton_self n)
      have hmq : ∀ a, a ∈ q' → a ∈ q := by
        intro a ha
        rw [← hsplit]
        exact List.mem_append_left [n] ha
      have hnid : n ∈ ids := h3 n (List.mem_append_left out hnq)
      -- Nodup decomposition
      have h2q : ((q' ++ [n]) ++ out).Nodup := by
        rw [hsplit]
        exact h2
      rw [List.nodup_append] at h2q
      obtain ⟨hqn_nd, hout_nd, hdisj⟩ := h2q
      rw [List.nodup_append] at hqn_nd
      obtain ⟨hq'_nd, _, hq'n⟩ := hqn_nd
      have hnq' : n ∉ q' := fun h => hq'n h (List.mem_singleton_self n)
      have hnout : n ∉ out :=
        fun h => hdisj (List.mem_append_right q' (List.mem_singleton_self n)) h
      have hq'out : ∀ a ∈ q', a ∉ out :=
        fun a ha h => hdisj (List.mem_append_left [n] ha) h
      -- process the adjacency list of n
      obtain ⟨qa, hpa2, hqand, hqamem, hpa1⟩ :=
        processAdj_spec (adjList E n) ind q'
      have hn0 : ind n ≤ 0 := h4 n (List.mem_append_left out hnq)
      have hcnt_n : indegCount E n ≤ cntIn E out n := by
        have := h1 n
        omega
      have hsrc_n : ∀ e ∈ E, e.2 = n → e.1 ∈ out :=
        inEdges_subset_of_cnt E out n hcnt_n
      have hqa_not : ∀ x ∈ qa, x ∉ q ++ out := by
        intro x hx hmem2
        have ha := (hqamem x).mp hx
        have hb := h4 x hmem2
        omega
      have hqa_ids : ∀ x ∈ qa, x ∈ ids := by
        intro x hx
        have h7 := (hqamem x).mp hx
        have hcnt : 0 < (adjList E n).count x := by omega
        have hxadj : x ∈ adjList E n := List.count_pos_iff_mem.mp hcnt
        unfold adjList at hxadj
        obtain ⟨e, he, he2⟩ := List.mem_map.mp hxadj
        exact he2 ▸ (hE e (List.mem_of_mem_filter he)).2
      have hqa_nq' : ∀ x ∈ qa, x ∉ q' :=
        fun x hx h => hqa_not x hx (List.mem_append_left out (hmq x h))
      have hqa_nout : ∀ x ∈ qa, x ∉ out :=
        fun x hx h => hqa_not x hx (List.mem_append_right q h)
      have hqa_nn : ∀ x ∈ qa, x ≠ n :=
        fun x hx h => hqa_not x hx (List.mem_append_left out (h ▸ hnq))
      -- the one unfolding step of the loop
      have hstep : kahnLoop (adjList E) (fuel + 1) ind q out =
          kahnLoop (adjList E) fuel
            (processAdj ind q' (adjList E n)).1
            (processAdj ind q' (adjList E n)).2 (out ++ [n]) := by
        rw [kahnLoop, dif_neg hq, hn, hq2]
      -- new invariant
      have hinv2 : LoopInv E ids (processAdj ind q' (adjList E n)).1
          (q' ++ qa) (out ++ [n]) := by
        refine ⟨?_, ?_, ?_, ?_, ?_, ?_⟩
        · intro x
          have ha := hpa1 x
          have hb := h1 x
          have hc := cntIn_append_singleton E out n hnout x
          omega
        · rw [List.nodup_append]
          refine ⟨?_, ?_, ?_⟩
          · rw [List.nodup_append]
            exact ⟨hq'_nd, hqand, fun a ha hb => hqa_nq' a hb ha⟩
          · rw [List.nodup_append]
            refine ⟨hout_nd, List.nodup_singleton n, ?_⟩
            intro a ha hb
            cases List.mem_singleton.mp hb
            exact hnout ha
          · intro a ha hb
            rcases List.mem_append.mp ha with ha2 | ha2
            · rcases List.mem_append.mp hb with hb2 | hb2
              · exact hq'out a ha2 hb2
              · cases List.mem_singleton.mp hb2
                exact hnq' ha2
            · rcases List.mem_append.mp hb with hb2 | hb2
              · exact hqa_nout a ha2 hb2
              · exact hqa_nn a ha2 (List.mem_singleton.mp hb2)
        · intro m hm
          rcases List.mem_append.mp hm with hm2 | hm2
          · rcases List.mem_append.mp hm2 with hm3 | hm3
            · exact h3 m (List.mem_append_left out (hmq m hm3))
            · exact hqa_ids m hm3
          · rcases List.mem_append.mp hm2 with hm3 | hm3
            · exact h3 m (List.mem_append_right q hm3)
            · cases List.mem_singleton.mp hm3
              exact hnid
        · intro m hm
          have ha := hpa1 m
          have hc : (0 : ℤ) ≤ ((adjList E n).count m : ℤ) := Nat.cast_nonneg _
          rcases List.mem_append.mp hm with hm2 | hm2
          · rcases List.mem_append.mp hm2 with hm3 | hm3
            · have := h4 m (List.mem_append_left out (hmq m hm3))
              omega
            · have := (hqamem m).mp hm3
              omega
          · rcases List.mem_append.mp hm2 with hm3 | hm3
            · have := h4 m (List.mem_append_right q hm3)
              omega
            · cases List.mem_singleton.mp hm3
              omega
        · intro m hm hm2
          have hnotq : m ∉ q ++ out := by
            intro hmem
            apply hm2
            rcases List.mem_append.mp hmem with hm3 | hm3
            · rw [← hsplit] at hm3
              rcases List.mem_append.mp hm3 with hm4 | hm4
              · exact List.mem_append_left _ (List.mem_append_left qa hm4)
              · cases List.mem_singleton.mp hm4
                exact List.mem_append_right _
                  (List.mem_append_right out (List.mem_singleton_self n))
            · exact List.mem_append_right _ (List.mem_append_left [n] hm3)
          have hnotqa : m ∉ qa :=
            fun h => hm2 (List.mem_append_left _ (List.mem_append_right q' h))
          have ha := hpa1 m
          have hb := h5 m hm hnotq
          have hc := hqamem m
          rw [hc] at hnotqa
          push_neg at hnotqa
          have := hnotqa hb
          omega
        · exact listTopo_append E out n hsrc_n h6
      -- the measure decreases
      have hU : ((q' ++ qa) ++ (out ++ [n])).toFinset =
          (q ++ out).toFinset ∪ qa.toFinset := by
        rw [← hsplit]
        ext a
        simp only [List.toFinset_append, Finset.mem_union, List.mem_toFinset]
        tauto
      have hqaF_sub : qa.toFinset ⊆ ids.toFinset \ (q ++ out).toFinset := by
        intro a ha
        rw [List.mem_toFinset] at ha
        rw [Finset.mem_sdiff, List.mem_toFinset, List.mem_toFinset]
        exact ⟨hqa_ids a ha, hqa_not a ha⟩
      have hcard : (ids.toFinset \ ((q' ++ qa) ++ (out ++ [n])).toFinset).card +
          qa.length = (ids.toFinset \ (q ++ out).toFinset).card := by
        have hsd : ids.toFinset \ ((q ++ out).toFinset ∪ qa.toFinset) =
            (ids.toFinset \ (q ++ out).toFinset) \ qa.toFinset := by
          ext a
          simp only [Finset.mem_sdiff, Finset.mem_union]
          tauto
        rw [hU, hsd, Finset.card_sdiff hqaF_sub]
        have hc1 : qa.toFinset.card = qa.length :=
          List.toFinset_card_of_nodup hqand
        have hc2 : qa.toFinset.card ≤
            (ids.toFinset \ (q ++ out).toFinset).card :=
          Finset.card_le_card hqaF_sub
        omega
      have hq'len : q'.length = q.length - 1 := by
        rw [← hq2]
        exact List.length_dropLast q
      have hqpos : 0 < q.length := List.length_pos.mpr hq
      have hphi2 : (q' ++ qa).length +
          (ids.toFinset \ ((q' ++ qa) ++ (out ++ [n])).toFinset).card < fuel := by
        rw [List.length_append, hq'len]
        omega
      -- recurse
      obtain ⟨ext, hres, hinvf⟩ :=
        ih (processAdj ind q' (adjList E n)).1 (q' ++ qa) (out ++ [n])
          hinv2 hphi2
      refine ⟨n :: ext, ?_, ?_⟩
      · rw [hstep, hpa2, hres]
        simp
      · have hrw : out ++ n :: ext = (out ++ [n]) ++ ext := by simp
        rw [hrw]
        exact hinvf

lemma topo_final (g : EIRGraph) (hwf : GraphWF g) :
    ∃ out : List String,
      topo g = (if out.length = (g.nodes.map GNode.id).length then some out
        else none) ∧
      out.Nodup ∧ (∀ m ∈ out, m ∈ g.nodes.map GNode.id) ∧
      ListTopo g.edges out ∧
      (∀ m ∈ g.nodes.map GNode.id, m ∉ out →
        cntIn g.edges out m < indegCount g.edges m) := by
  obtain ⟨hids, hE⟩ := hwf
  have hinv0 : LoopInv g.edges (g.nodes.map GNode.id) (indegCount g.edges)
      ((g.nodes.map GNode.id).filter
        (fun n => decide (indegCount g.edges n = 0))) [] := by
    refine ⟨?_, ?_, ?_, ?_, ?_, ?_⟩
    · intro x
      rw [cntIn_nil]
      ring
    · rw [List.append_nil]
      exact hids.filter _
    · intro m hm
      rw [List.append_nil] at hm
      exact List.mem_of_mem_filter hm
    · intro m hm
      rw [List.append_nil] at hm
      have hmf := List.of_mem_filter hm
      have h0 : indegCount g.edges m = 0 := of_decide_eq_true hmf
      omega
    · intro m hm hm2
      rw [List.append_nil] at hm2
      have hne : ¬(indegCount g.edges m = 0) := by
        intro h0
        exact hm2 (List.mem_filter.mpr ⟨hm, decide_eq_true h0⟩)
      unfold indegCount at hne ⊢
      omega
    · intro i hi
      simp at hi
  have hphi0 : ((g.nodes.map GNode.id).filter
        (fun n => decide (indegCount g.edges n = 0))).length +
      ((g.nodes.map GNode.id).toFinset \
        (((g.nodes.map GNode.id).filter
          (fun n => decide (indegCount g.edges n = 0))) ++ []).toFinset).card <
      (g.nodes.map GNode.id).length + 1 := by
    rw [List.append_nil]
    have hsub : ((g.nodes.map GNode.id).filter
        (fun n => decide (indegCount g.edges n = 0))).toFinset ⊆
        (g.nodes.map GNode.id).toFinset := by
      intro a ha
      rw [List.mem_toFinset] at ha ⊢
      exact List.mem_of_mem_filter ha
    rw [Finset.card_sdiff hsub, List.toFinset_card_of_nodup hids,
      List.toFinset_card_of_nodup (hids.filter _)]
    have hlen := List.length_filter_le
      (fun n => decide (indegCount g.edges n = 0)) (g.nodes.map GNode.id)
    omega
  obtain ⟨ext, hres, hinvf⟩ := kahnLoop_spec g.edges (g.nodes.map GNode.id)
    hE ((g.nodes.map GNode.id).length + 1) (indegCount g.edges)
    ((g.nodes.map GNode.id).filter
      (fun n => decide (indegCount g.edges n = 0))) [] hinv0 hphi0
  obtain ⟨hf1, hf2, hf3, hf4, hf5, hf6⟩ := hinvf
  rw [List.nil_append] at hres
  refine ⟨ext, ?_, ?_, ?_, ?_, ?_⟩
  · show (if (kahnLoop (adjList g.edges) ((g.nodes.map GNode.id).length + 1)
        (indegCount g.edges)
        ((g.nodes.map GNode.id).filter
          (fun n => decide (indegCount g.edges n = 0)))
        []).length = (g.nodes.map GNode.id).length
      then some (kahnLoop (adjList g.edges)
        ((g.nodes.map GNode.id).length + 1) (indegCount g.edges)
        ((g.nodes.map GNode.id).filter
          (fun n => decide (indegCount g.edges n = 0))) [])
      else none) = _
    rw [hres]
  · simpa using hf2
  · intro m hm
    exact hf3 m (by simpa using hm)
  · simpa using hf6
  · intro m hm hm2
    have h5 := hf5 m hm (by simpa using hm2)
    have : 1 ≤ indegCount g.edges m - cntIn g.edges ([] ++ ext) m := h5
    rw [List.nil_append] at this
    omega

lemma indexOf_lt_of_mem_take :
    ∀ (l : List String) (k : ℕ) (a : String), a ∈ l.take k →
      l.indexOf a < k := by
  intro l
  induction l with
  | nil =>
    intro k a ha
    simp at ha
  | cons b l ih =>
    intro k a ha
    cases k with
    | zero => simp at ha
    | succ k =>
      rw [List.take_succ_cons] at ha
      by_cases hab : a = b
      · subst hab
        rw [List.indexOf_cons_self]
        omega
      · rcases List.mem_cons.mp ha with h | h
        · exact absurd h hab
        · rw [List.indexOf_cons_ne l (by simpa using Ne.symm hab)]
          have := ih k a h
          omega

lemma topo_some_acyclic (g : EIRGraph) (hwf : GraphWF g)
    (h : (topo g).isSome) : Acyclic g := by
  obtain ⟨out, htopo, hnd, hsub, htopoP, _⟩ := topo_final g hwf
  rw [htopo] at h
  by_cases hlen : out.length = (g.nodes.map GNode.id).length
  · have hids := hwf.1
    have hsubF : out.toFinset ⊆ (g.nodes.map GNode.id).toFinset := by
      intro a ha
      rw [List.mem_toFinset] at ha ⊢
      exact hsub a ha
    have hcards : (g.nodes.map GNode.id).toFinset.card ≤ out.toFinset.card := by
      rw [List.toFinset_card_of_nodup hnd, List.toFinset_card_of_nodup hids,
        hlen]
    have heqF : out.toFinset = (g.nodes.map GNode.id).toFinset :=
      Finset.eq_of_subset_of_card_le hsubF hcards
    have hcover : ∀ m ∈ g.nodes.map GNode.id, m ∈ out := by
      intro m hm
      rw [← List.mem_toFinset, heqF, List.mem_toFinset]
      exact hm
    have hidx : ∀ a b, edgeRel g a b → out.indexOf a < out.indexOf b := by
      intro a b hab
      have hbout : b ∈ out := hcover b (hwf.2 (a, b) hab).2
      have hib : out.indexOf b < out.length := List.indexOf_lt_length.mpr hbout
      have hgetb : out.get ⟨out.indexOf b, hib⟩ = b := List.indexOf_get hib
      have hmem := htopoP (out.indexOf b) hib (a, b) hab hgetb.symm
      exact indexOf_lt_of_mem_take out (out.indexOf b) a hmem
    rintro ⟨n, hn⟩
    have hmono : ∀ a b, Relation.TransGen (edgeRel g) a b →
        out.indexOf a < out.indexOf b := by
      intro a b hab
      induction hab with
      | single h1 => exact hidx _ _ h1
      | tail _ h1 ih => exact lt_trans ih (hidx _ _ h1)
    exact absurd (hmono n n hn) (lt_irrefl _)
  · rw [if_neg hlen] at h
    simp at h

lemma acyclic_topo_some (g : EIRGraph) (hwf : GraphWF g)
    (hA : Acyclic g) : (topo g).isSome := by
  obtain ⟨out, htopo, hnd, hsub, _, hmiss⟩ := topo_final g hwf
  rw [htopo]
  by_cases hlen : out.length = (g.nodes.map GNode.id).length
  · rw [if_pos hlen]
    rfl
  · exfalso
    have hids := hwf.1
    have hsubF : out.toFinset ⊆ (g.nodes.map GNode.id).toFinset := by
      intro a ha
      rw [List.mem_toFinset] at ha ⊢
      exact hsub a ha
    have hle : out.length ≤ (g.nodes.map GNode.id).length := by
      have := Finset.card_le_card hsubF
      rw [List.toFinset_card_of_nodup hnd,
        List.toFinset_card_of_nodup hids] at this
      exact this
    have hcRF : 0 < ((g.nodes.map GNode.id).toFinset \ out.toFinset).card := by
      rw [Finset.card_sdiff hsubF, List.toFinset_card_of_nodup hnd,
        List.toFinset_card_of_nodup hids]
      omega
    obtain ⟨r0, hr0⟩ := Finset.card_pos.mp hcRF
    have hexn : ∀ m ∈ (g.nodes.map GNode.id).toFinset \ out.toFinset,
        ∃ s, s ∈ (g.nodes.map GNode.id).toFinset \ out.toFinset ∧
          (s, m) ∈ g.edges := by
      intro m hm
      rw [Finset.mem_sdiff, List.mem_toFinset, List.mem_toFinset] at hm
      have hlt2 := hmiss m hm.1 hm.2
      unfold cntIn indegCount at hlt2
      have hltN : g.edges.countP
            (fun e => decide (e.1 ∈ out) && decide (e.2 = m)) <
          g.edges.countP (fun e => decide (e.2 = m)) := by
        omega
      obtain ⟨e, he, hq, hp⟩ := exists_of_countP_lt g.edges hltN
      have he2 : e.2 = m := of_decide_eq_true hq
      have hnotout : e.1 ∉ out := by
        intro hmem
        rw [decide_eq_true hmem, hq] at hp
        simp at hp
      refine ⟨e.1, ?_, ?_⟩
      · rw [Finset.mem_sdiff, List.mem_toFinset, List.mem_toFinset]
        exact ⟨(hwf.2 e he).1, hnotout⟩
      · have hpe : (e.1, e.2) ∈ g.edges := by
          rw [Prod.mk.eta]
          exact he
        rw [← he2]
        exact hpe
    have hch : ∀ x : {x // x ∈ (g.nodes.map GNode.id).toFinset \ out.toFinset},
        ∃ s, s ∈ (g.nodes.map GNode.id).toFinset \ out.toFinset ∧
          (s, x.1) ∈ g.edges :=
      fun x => hexn x.1 x.2
    choose f hf1 hf2 using hch
    have hiter : ∀ (k : ℕ)
        (x : {x // x ∈ (g.nodes.map GNode.id).toFinset \ out.toFinset}),
        0 < k →
        Relation.TransGen (edgeRel g)
          ((fun y => (⟨f y, hf1 y⟩ :
            {x // x ∈ (g.nodes.map GNode.id).toFinset \ out.toFinset}))^[k]
              x).1 x.1 := by
      intro k
      induction k with
      | zero =>
        intro x h0
        exact absurd h0 (lt_irrefl 0)
      | succ k ihk =>
        intro x _
        by_cases hk : 0 < k
        · rw [Function.iterate_succ_apply]
          exact Relation.TransGen.tail (ihk _ hk) (hf2 x)
        · have hk0 : k = 0 := by omega
          subst hk0
          rw [Function.iterate_one]
          exact Relation.TransGen.single (hf2 x)
    obtain ⟨i, j, hij, heqij⟩ := Finite.exists_ne_map_eq_of_infinite
      (fun k : ℕ => (fun y => (⟨f y, hf1 y⟩ :
        {x // x ∈ (g.nodes.map GNode.id).toFinset \ out.toFinset}))^[k]
          ⟨r0, hr0⟩)
    have key : ∀ i2 j2 : ℕ, i2 < j2 →
        ((fun y => (⟨f y, hf1 y⟩ :
          {x // x ∈ (g.nodes.map GNode.id).toFinset \ out.toFinset}))^[i2]
            ⟨r0, hr0⟩) =
        ((fun y => (⟨f y, hf1 y⟩ :
          {x // x ∈ (g.nodes.map GNode.id).toFinset \ out.toFinset}))^[j2]
            ⟨r0, hr0⟩) → False := by
      intro i2 j2 hij2 heq2
      have hs : ((fun y => (⟨f y, hf1 y⟩ :
          {x // x ∈ (g.nodes.map GNode.id).toFinset \ out.toFinset}))^[j2]
            ⟨r0, hr0⟩) =
          ((fun y => (⟨f y, hf1 y⟩ :
            {x // x ∈ (g.nodes.map GNode.id).toFinset \ out.toFinset}))^[j2 - i2]
              (((fun y => (⟨f y, hf1 y⟩ :
                {x // x ∈ (g.nodes.map GNode.id).toFinset \ out.toFinset}))^[i2]
                  ⟨r0, hr0⟩))) := by
        rw [← Function.iterate_add_apply]
        congr 1
        omega
      have hcyc := hiter (j2 - i2)
        (((fun y => (⟨f y, hf1 y⟩ :
          {x // x ∈ (g.nodes.map GNode.id).toFinset \ out.toFinset}))^[i2]
            ⟨r0, hr0⟩)) (by omega)
      rw [← hs, ← heq2] at hcyc
      exact hA ⟨_, hcyc⟩
    rcases lt_or_gt_of_ne hij with h2 | h2
    · exact key i j h2 heqij
    · exact key j i h2 heqij.symm

/-- Claim C4 (corrected): for every well-formed EIR graph, the graph
build/validation step `topo` succeeds iff the edge-induced graph is
acyclic.  Delay nodes receive no special treatment: `topo` depends only on
the node ids and the edges — never on operator kinds or `delay_ns` — so a
cycle passing through a positive-delay `delay_line` node is rejected with
the cycle error exactly like any other cycle. -/
theorem claim4_topo_cycle_detection :
    (∀ g : EIRGraph, GraphWF g → ((topo g).isSome ↔ Acyclic g)) ∧
    (∀ g g2 : EIRGraph, g.nodes.map GNode.id = g2.nodes.map GNode.id →
      g.edges = g2.edges → topo g = topo g2) := by
  constructor
  · intro g hwf
    exact ⟨topo_some_acyclic g hwf, acyclic_topo_some g hwf⟩
  · intro g g2 h1 h2
    unfold topo
    rw [h1, h2]

/-- The cyclic two-node graph `lif0 → d0 → lif0` where `d0` is a
`delay_line` with positive `delay_ns`. -/
def gC4 : EIRGraph :=
  ⟨[⟨"lif0", "lif", 0⟩, ⟨"d0", "delay_line", 1000⟩],
   [("lif0", "d0"), ("d0", "lif0")]⟩

/-- Counterexample to C4 as stated: the only cycle of `gC4` passes through
the `delay_line` node `d0` with `delay_ns = 1000 > 0`, so per the claim the
build should succeed (cycle broken at the delay); the code instead raises
the cycle error (`none`). -/
theorem claim4_counterexample :
    GraphWF gC4 ∧
    (∃ nd ∈ gC4.nodes, nd.kind = "delay_line" ∧ 0 < nd.delayNs ∧
      ("lif0", nd.id) ∈ gC4.edges ∧ (nd.id, "lif0") ∈ gC4.edges) ∧
    topo gC4 = none := by
  refine ⟨by decide, ⟨⟨"d0", "delay_line", 1000⟩, by decide, rfl, by decide,
    by decide, by decide⟩, by decide⟩

/-- An acyclic two-node graph used as the witness input. -/
def gC4w : EIRGraph :=
  ⟨[⟨"a", "lif", 0⟩, ⟨"b", "exp_syn", 0⟩], [("a", "b")]⟩

/-- Witness for C4: on the concrete well-formed acyclic graph `gC4w` the
build succeeds. -/
theorem claim4_topo_cycle_detection_witness :
    GraphWF gC4w ∧ Acyclic gC4w ∧ (topo gC4w).isSome := by
  have hwf : GraphWF gC4w := by decide
  have hstep : ∀ x y, edgeRel gC4w x y → x = "a" ∧ y = "b" := by
    intro x y h
    simp [edgeRel, gC4w] at h
    exact h
  have hA : Acyclic gC4w := by
    rintro ⟨n, hn⟩
    have htg : ∀ x y, Relation.TransGen (edgeRel gC4w) x y →
        x = "a" ∧ y = "b" := by
      intro x y h
      induction h with
      | single h1 => exact hstep _ _ h1
      | tail _ h2 ih => exact ⟨ih.1, (hstep _ _ h2).2⟩
    have hc := htg n n hn
    exact absurd (hc.1.symm.trans hc.2) (by decide)
  exact ⟨hwf, hA, (claim4_topo_cycle_detection.1 gC4w hwf).mpr hA⟩

end EventFlow
